import Mathlib

/-!
Shallow embedding of the CPU-scheduler simulator (files `FCFS.py` and
`MLFQ.py`): the `Process` state machine, the FCFS scheduler, the
round-robin queue primitive and the MLFQ scheduler.

Conventions of the embedding:
* Python `assert` failures and out-of-range list indexing raise exceptions;
  fallible operations are therefore `Option`-valued, with `none` standing
  for a crashed execution.
* Python object references to `Process` objects are represented by process
  ids; the schedulers constructed by `main` always build process lists in
  which the id of the i-th process is i, so dereferencing a stored
  reference is `processes[id]`.
* Durations are `Int` (Python integers): `x - 1` may go below zero and the
  code compares with `== 0` afterwards, which an `Int` model reproduces.
* The scheduler callbacks (`processReady`, `processDone`, `processIO`) are
  invoked by `Process.simulate` in Python; here `Process.simulate` returns
  an event tag and the scheduler applies the corresponding callback, after
  writing the updated process back.  The callbacks never mutate the
  process itself, so this is the same computation.
* `processIO` is rendered `processIo` (capitalisation only).
-/

namespace Sched

/-- The four modes of a process: 'ready', 'burst', 'io', 'done'. -/
inductive Mode where
  | ready
  | burst
  | io
  | done
deriving DecidableEq

/-- The `Process` class: burst/I-O duration lists, cursors, metrics. -/
structure Process where
  id : Nat
  n : Nat
  burst_times : List Int
  io_times : List Int
  mode : Mode
  idx_burst : Nat
  idx_io : Nat
  waiting_time : Nat
  turnaround_time : Nat
  response_time : Option Nat
deriving DecidableEq

/-- `times[::2]` — entries at even positions. -/
def evens : List Int → List Int
  | [] => []
  | a :: rest =>
    a :: (match rest with
          | [] => []
          | _ :: rest' => evens rest')

/-- `times[1::2]` — entries at odd positions. -/
def odds : List Int → List Int
  | [] => []
  | _ :: rest =>
    match rest with
    | [] => []
    | b :: rest' => b :: odds rest'

/-- `Process.__init__(id, times, sched)` (the scheduler back-reference is
implicit in the event protocol). -/
def Process.init (id : Nat) (times : List Int) : Process where
  id := id
  n := times.length
  burst_times := evens times
  io_times := odds times
  mode := Mode.ready
  idx_burst := 0
  idx_io := 0
  waiting_time := 0
  turnaround_time := 0
  response_time := none

/-- Scheduler notification emitted by a `Process.simulate` tick: no
notification, `processDone`, `processIO`, or `processReady`. -/
inductive PEvent where
  | noEv
  | evDone
  | evIo
  | evReady
deriving DecidableEq

/-- `Process.simulate`: one time unit.  Returns the updated process, the
Python return value (`True` iff the process is done), and the scheduler
callback it fired (if any).  `none` models an `IndexError`. -/
def Process.simulate (p : Process) : Option (Process × Bool × PEvent) :=
  if p.mode = Mode.done then
    some (p, true, PEvent.noEv)
  else
    let p := { p with turnaround_time := p.turnaround_time + 1 }
    if p.mode = Mode.burst then
      match p.burst_times.get? p.idx_burst with
      | none => none
      | some b =>
        let p := { p with burst_times := p.burst_times.set p.idx_burst (b - 1) }
        if b - 1 = 0 then
          let p := { p with mode := Mode.io, idx_burst := p.idx_burst + 1 }
          if p.idx_burst = p.n / 2 + 1 then
            some ({ p with mode := Mode.done }, true, PEvent.evDone)
          else
            some (p, false, PEvent.evIo)
        else
          some (p, false, PEvent.noEv)
    else if p.mode = Mode.io then
      match p.io_times.get? p.idx_io with
      | none => none
      | some b =>
        let p := { p with io_times := p.io_times.set p.idx_io (b - 1) }
        if b - 1 = 0 then
          some ({ p with mode := Mode.ready, idx_io := p.idx_io + 1 }, false, PEvent.evReady)
        else
          some (p, false, PEvent.noEv)
    else
      some ({ p with waiting_time := p.waiting_time + 1 }, false, PEvent.noEv)

/-- `Process.scheduleOnCPU`: requires mode 'ready' (Python `assert`);
moves to 'burst' and records `response_time` on the first call. -/
def Process.scheduleOnCPU (p : Process) : Option Process :=
  if p.mode = Mode.ready then
    some { p with
           mode := Mode.burst,
           response_time :=
             match p.response_time with
             | none => some p.turnaround_time
             | some r => some r }
  else
    none

/-- `Process.descheduleFromCPU` (MLFQ.py only): requires mode 'burst';
moves back to 'ready'. -/
def Process.descheduleFromCPU (p : Process) : Option Process :=
  if p.mode = Mode.burst then
    some { p with mode := Mode.ready }
  else
    none

/-- Iterated `Process.simulate` (the Python driver calls it once per tick). -/
def Process.runTicks : Nat → Process → Option Process
  | 0, p => some p
  | k + 1, p =>
    match p.simulate with
    | none => none
    | some (q, _, _) => Process.runTicks k q

/-- `main`'s process construction: `[Process(i, times[i], None) for i in range(n)]`. -/
def mkProcs (times : List (List Int)) : List Process :=
  (List.range times.length).map (fun i => Process.init i (times.getD i []))

/-- The `FCFSScheduler` class.  `queue` is the FIFO ready queue (front of
the list is the next to be dequeued). -/
structure FCFSScheduler where
  processes : List Process
  cpu : Option Nat
  queue : List Nat
  total_time : Nat
  cpu_time : Nat
  done : Nat
  n : Nat
deriving DecidableEq

/-- `FCFSScheduler.__init__` applied, as in `main`, to a freshly
constructed process list: asserts the list non-empty, puts process 0 on
the CPU, queues the indices `1..n-1`. -/
def FCFSScheduler.init (times : List (List Int)) : Option FCFSScheduler :=
  let procs := mkProcs times
  match procs.get? 0 with
  | none => none
  | some p0 =>
    match p0.scheduleOnCPU with
    | none => none
    | some p0' =>
      some { processes := procs.set 0 p0'
             cpu := some p0.id
             queue := (List.range procs.length).drop 1
             total_time := 0
             cpu_time := 0
             done := 0
             n := procs.length }

/-- `FCFSScheduler.processReady`: appends the id to the FIFO queue. -/
def FCFSScheduler.processReady (s : FCFSScheduler) (id : Nat) : FCFSScheduler :=
  { s with queue := s.queue ++ [id] }

/-- `FCFSScheduler.processDone`: asserts the finished process occupies the
CPU, counts it done and frees the CPU. -/
def FCFSScheduler.processDone (s : FCFSScheduler) (id : Nat) : Option FCFSScheduler :=
  if s.cpu = some id then
    some { s with done := s.done + 1, cpu := none }
  else
    none

/-- `FCFSScheduler.processIO`: asserts the blocking process occupies the
CPU and frees the CPU. -/
def FCFSScheduler.processIo (s : FCFSScheduler) (id : Nat) : Option FCFSScheduler :=
  if s.cpu = some id then
    some { s with cpu := none }
  else
    none

/-- Dispatch of the callback fired by a process tick. -/
def FCFSScheduler.applyEvent (s : FCFSScheduler) (id : Nat) : PEvent → Option FCFSScheduler
  | PEvent.noEv => some s
  | PEvent.evDone => s.processDone id
  | PEvent.evIo => s.processIo id
  | PEvent.evReady => some (s.processReady id)

/-- One iteration of the `for p in self.processes: p.simulate()` loop:
tick the process at index `i`, write it back, apply its callback. -/
def FCFSScheduler.stepProc (s : FCFSScheduler) (i : Nat) : Option FCFSScheduler :=
  match s.processes.get? i with
  | none => none
  | some p =>
    match p.simulate with
    | none => none
    | some (p', _, ev) =>
      FCFSScheduler.applyEvent { s with processes := s.processes.set i p' } p'.id ev

/-- The body of the per-tick process loop, over a list of indices. -/
def FCFSScheduler.advanceLoop (s : FCFSScheduler) : List Nat → Option FCFSScheduler
  | [] => some s
  | i :: rest =>
    match s.stepProc i with
    | none => none
    | some s' => s'.advanceLoop rest

/-- `for p in self.processes: p.simulate()`. -/
def FCFSScheduler.advanceAll (s : FCFSScheduler) : Option FCFSScheduler :=
  s.advanceLoop (List.range s.processes.length)

/-- `FCFSScheduler.simulate`: one tick.  Returns the new state and the
Python return value (`True` iff all processes are done). -/
def FCFSScheduler.simulate (s : FCFSScheduler) : Option (FCFSScheduler × Bool) :=
  if s.done = s.n then
    some (s, true)
  else
    let sched :=
      match s.cpu with
      | some _ => some s
      | none =>
        match s.queue with
        | [] => some s
        | id :: rest =>
          match s.processes.get? id with
          | none => none
          | some p =>
            match p.scheduleOnCPU with
            | none => none
            | some p' =>
              some { s with cpu := some id, queue := rest,
                            processes := s.processes.set id p' }
    match sched with
    | none => none
    | some s =>
      let s := if s.cpu.isSome then { s with cpu_time := s.cpu_time + 1 } else s
      let s := { s with total_time := s.total_time + 1 }
      match s.advanceAll with
      | none => none
      | some s => some (s, decide (s.done = s.n))

/-- `while not scheduler.simulate(): pass`, run for a bounded number of
ticks. -/
def FCFSScheduler.run : Nat → FCFSScheduler → Option FCFSScheduler
  | 0, s => some s
  | k + 1, s =>
    match s.simulate with
    | none => none
    | some (s', _) => FCFSScheduler.run k s'


/-- The `RRQueue` class.  `queue` stores process ids (Python stores the
`Process` objects themselves; membership and order are what matter).  The
modes of the stored processes are read through the scheduler's live
process list, which is passed to every operation that scans the queue. -/
structure RRQueue where
  quantum : Nat
  queue : List Nat
  time : Nat
  idx : Nat
  isActive : Bool
  lastRemoved : Option Nat
  currentRunning : Option Nat
deriving DecidableEq

/-- `RRQueue.__init__(queue, quantum, isActive)`. -/
def RRQueue.mk0 (queue : List Nat) (quantum : Nat) (isActive : Bool) : RRQueue where
  quantum := quantum
  queue := queue
  time := 0
  idx := 0
  isActive := isActive
  lastRemoved := none
  currentRunning :=
    match queue with
    | [] => none
    | id :: _ => if isActive then some id else none

/-- The `while self.queue[self.idx].mode != 'ready'` scan of
`nextReadyProcess`, with the loop counter `cnt` rendered as fuel
(`fuel = len(queue) - cnt`); exhausted fuel is the `cnt == len(queue)`
exit that deactivates the queue. -/
def RRQueue.nextReadyLoop (procs : List Process) (q : RRQueue) : Nat → Option RRQueue
  | 0 => some { q with isActive := false, currentRunning := none }
  | fuel + 1 =>
    match q.queue.get? q.idx with
    | none => none
    | some id =>
      match procs.get? id with
      | none => none
      | some p =>
        if p.mode = Mode.ready then
          some { q with isActive := true, currentRunning := some id }
        else
          RRQueue.nextReadyLoop procs
            { q with idx := (q.idx + 1) % q.queue.length } fuel

/-- `RRQueue.nextReadyProcess`: circular scan from the cursor for a ready
member; deactivates the queue when a full rotation finds none. -/
def RRQueue.nextReadyProcess (procs : List Process) (q : RRQueue) : Option RRQueue :=
  if q.isActive = false then
    some q
  else if q.queue.length = 0 then
    none
  else
    RRQueue.nextReadyLoop procs q q.queue.length

/-- `RRQueue.processIO`: asserts the id is the current runner, zeroes the
slot timer and rescans. -/
def RRQueue.processIo (procs : List Process) (q : RRQueue) (id : Nat) : Option RRQueue :=
  if q.currentRunning = some id then
    RRQueue.nextReadyProcess procs { q with time := 0 }
  else
    none

/-- `RRQueue.processDone`: asserts the id is the current runner, removes
it at the cursor, re-clamps the cursor, deactivates when empty, rescans. -/
def RRQueue.processDone (procs : List Process) (q : RRQueue) (id : Nat) : Option RRQueue :=
  if q.currentRunning = some id then
    let q := { q with time := 0, queue := q.queue.eraseIdx q.idx }
    let q := if q.idx = q.queue.length then { q with idx := 0 } else q
    let q := if q.queue.length = 0 then
               { q with isActive := false, currentRunning := none }
             else q
    RRQueue.nextReadyProcess procs q
  else
    none

/-- `RRQueue.makeInactive`. -/
def RRQueue.makeInactive (q : RRQueue) : RRQueue :=
  { q with currentRunning := none, isActive := false }

/-- `RRQueue.makeActive`: returns the updated queue and the Python return
value (success flag). -/
def RRQueue.makeActive (procs : List Process) (q : RRQueue) : Option (RRQueue × Bool) :=
  if q.queue.length = 0 then
    some (q, false)
  else if q.isActive then
    some (q, true)
  else
    match RRQueue.nextReadyProcess procs { q with isActive := true } with
    | none => none
    | some q' => some (q', q'.isActive)

/-- `RRQueue.addProcess`. -/
def RRQueue.addProcess (q : RRQueue) (id : Nat) : RRQueue :=
  { q with queue := q.queue ++ [id] }

/-- `RRQueue.simulate`: one time unit for the queue.  Returns `false`
(quantum expired) after evicting the member at the cursor, exposing it in
`lastRemoved` and rescanning; `true` otherwise. -/
def RRQueue.simulate (procs : List Process) (q : RRQueue) : Option (RRQueue × Bool) :=
  if q.isActive = false then
    some (q, true)
  else
    let q := { q with time := q.time + 1 }
    if q.time = q.quantum then
      match q.queue.get? q.idx with
      | none => none
      | some removedId =>
        let q := { q with time := 0, lastRemoved := some removedId,
                          queue := q.queue.eraseIdx q.idx }
        let q := if q.idx = q.queue.length then { q with idx := 0 } else q
        let q := if q.queue.length = 0 then
                   { q with isActive := false, currentRunning := none }
                 else q
        match RRQueue.nextReadyProcess procs q with
        | none => none
        | some q' => some (q', false)
    else
      some (q, true)

/-- The `MLFQScheduler` class: the two round-robin queues (quanta 5 and
10), the level-2 FIFO queue, the per-id priority table. -/
structure MLFQScheduler where
  processes : List Process
  n : Nat
  rr0 : RRQueue
  rr1 : RRQueue
  fcfs_queue : List Nat
  priorities : List Nat
  cpu : Option Nat
  total_time : Nat
  cpu_time : Nat
  done : Nat
deriving DecidableEq

/-- `MLFQScheduler.__init__` applied, as in `main`, to a freshly
constructed process list: level-0 queue holds every process and is
active, level-1 queue is empty and inactive, all priorities are 0,
process 0 is put on the CPU. -/
def MLFQScheduler.init (times : List (List Int)) : Option MLFQScheduler :=
  let procs := mkProcs times
  match procs.get? 0 with
  | none => none
  | some p0 =>
    match p0.scheduleOnCPU with
    | none => none
    | some p0' =>
      some { processes := procs.set 0 p0'
             n := procs.length
             rr0 := RRQueue.mk0 (procs.map Process.id) 5 true
             rr1 := RRQueue.mk0 [] 10 false
             fcfs_queue := []
             priorities := List.replicate procs.length 0
             cpu := some p0.id
             total_time := 0
             cpu_time := 0
             done := 0 }

/-- `MLFQScheduler.processReady`: a process of priority 2 re-joins the
FIFO queue; at priority 0 or 1 it is already a member of its round-robin
queue and nothing happens. -/
def MLFQScheduler.processReady (s : MLFQScheduler) (id : Nat) : Option MLFQScheduler :=
  match s.priorities.get? id with
  | none => none
  | some pr =>
    if pr = 2 then
      some { s with fcfs_queue := s.fcfs_queue ++ [id] }
    else
      some s

/-- `MLFQScheduler.processDone`: asserts the finished process occupies
the CPU, counts it done, frees the CPU, and (at priority 0 or 1) removes
it from its round-robin queue. -/
def MLFQScheduler.processDone (s : MLFQScheduler) (id : Nat) : Option MLFQScheduler :=
  if s.cpu = some id then
    let s := { s with done := s.done + 1, cpu := none }
    match s.priorities.get? id with
    | none => none
    | some pr =>
      if pr = 0 then
        match RRQueue.processDone s.processes s.rr0 id with
        | none => none
        | some q => some { s with rr0 := q }
      else if pr = 1 then
        match RRQueue.processDone s.processes s.rr1 id with
        | none => none
        | some q => some { s with rr1 := q }
      else
        some s
  else
    none

/-- `MLFQScheduler.processIO`: asserts the blocking process occupies the
CPU, frees the CPU, and (at priority 0 or 1) idles it in its round-robin
queue. -/
def MLFQScheduler.processIo (s : MLFQScheduler) (id : Nat) : Option MLFQScheduler :=
  if s.cpu = some id then
    let s := { s with cpu := none }
    match s.priorities.get? id with
    | none => none
    | some pr =>
      if pr = 0 then
        match RRQueue.processIo s.processes s.rr0 id with
        | none => none
        | some q => some { s with rr0 := q }
      else if pr = 1 then
        match RRQueue.processIo s.processes s.rr1 id with
        | none => none
        | some q => some { s with rr1 := q }
      else
        some s
  else
    none

/-- Dispatch of the callback fired by a process tick. -/
def MLFQScheduler.applyEvent (s : MLFQScheduler) (id : Nat) : PEvent → Option MLFQScheduler
  | PEvent.noEv => some s
  | PEvent.evDone => s.processDone id
  | PEvent.evIo => s.processIo id
  | PEvent.evReady => s.processReady id

/-- First block of the per-tick scheduling decision: if the CPU is free
or the running process has priority > 0, try to activate the level-0
queue; on success preempt whatever is running (deactivating the level-1
queue if it was a level-1 runner, re-queueing a level-2 runner on the
FIFO queue) and schedule the level-0 candidate. -/
def MLFQScheduler.tryLevel0 (s : MLFQScheduler) : Option MLFQScheduler :=
  let go : Option Bool :=
    match s.cpu with
    | none => some true
    | some c =>
      match s.priorities.get? c with
      | none => none
      | some pr => some (decide (0 < pr))
  match go with
  | none => none
  | some false => some s
  | some true =>
    match RRQueue.makeActive s.processes s.rr0 with
    | none => none
    | some (q0, ok) =>
      let s := { s with rr0 := q0 }
      if ok then
        let preempted : Option MLFQScheduler :=
          match s.cpu with
          | none => some s
          | some c =>
            match s.processes.get? c with
            | none => none
            | some p =>
              match p.descheduleFromCPU with
              | none => none
              | some p' =>
                let s := { s with processes := s.processes.set c p' }
                match s.priorities.get? c with
                | none => none
                | some pr =>
                  if pr = 1 then
                    some { s with rr1 := s.rr1.makeInactive }
                  else
                    some { s with fcfs_queue := s.fcfs_queue ++ [c] }
        match preempted with
        | none => none
        | some s =>
          match s.rr0.currentRunning with
          | none => none
          | some r =>
            match s.processes.get? r with
            | none => none
            | some p =>
              match p.scheduleOnCPU with
              | none => none
              | some p' =>
                some { s with cpu := some r, processes := s.processes.set r p' }
      else
        some s

/-- Second block of the scheduling decision: like the first but for the
level-1 queue; a preempted process always goes to the FIFO queue. -/
def MLFQScheduler.tryLevel1 (s : MLFQScheduler) : Option MLFQScheduler :=
  let go : Option Bool :=
    match s.cpu with
    | none => some true
    | some c =>
      match s.priorities.get? c with
      | none => none
      | some pr => some (decide (1 < pr))
  match go with
  | none => none
  | some false => some s
  | some true =>
    match RRQueue.makeActive s.processes s.rr1 with
    | none => none
    | some (q1, ok) =>
      let s := { s with rr1 := q1 }
      if ok then
        let preempted : Option MLFQScheduler :=
          match s.cpu with
          | none => some s
          | some c =>
            match s.processes.get? c with
            | none => none
            | some p =>
              match p.descheduleFromCPU with
              | none => none
              | some p' =>
                some { s with processes := s.processes.set c p',
                              fcfs_queue := s.fcfs_queue ++ [c] }
        match preempted with
        | none => none
        | some s =>
          match s.rr1.currentRunning with
          | none => none
          | some r =>
            match s.processes.get? r with
            | none => none
            | some p =>
              match p.scheduleOnCPU with
              | none => none
              | some p' =>
                some { s with cpu := some r, processes := s.processes.set r p' }
      else
        some s

/-- Third block of the scheduling decision: a still-free CPU pops the
FIFO queue. -/
def MLFQScheduler.tryFifo (s : MLFQScheduler) : Option MLFQScheduler :=
  match s.cpu with
  | some _ => some s
  | none =>
    match s.fcfs_queue with
    | [] => some s
    | id :: rest =>
      match s.processes.get? id with
      | none => none
      | some p =>
        match p.scheduleOnCPU with
        | none => none
        | some p' =>
          some { s with cpu := some id, fcfs_queue := rest,
                        processes := s.processes.set id p' }

/-- The complete per-tick scheduling decision, the three blocks in
priority order, evaluated before any process advances. -/
def MLFQScheduler.decision (s : MLFQScheduler) : Option MLFQScheduler :=
  (s.tryLevel0).bind (fun t => (t.tryLevel1).bind MLFQScheduler.tryFifo)

/-- One iteration of the `for p in self.processes: p.simulate()` loop. -/
def MLFQScheduler.stepProc (s : MLFQScheduler) (i : Nat) : Option MLFQScheduler :=
  match s.processes.get? i with
  | none => none
  | some p =>
    match p.simulate with
    | none => none
    | some (p', _, ev) =>
      MLFQScheduler.applyEvent { s with processes := s.processes.set i p' } p'.id ev

/-- The body of the per-tick process loop, over a list of indices. -/
def MLFQScheduler.advanceLoop (s : MLFQScheduler) : List Nat → Option MLFQScheduler
  | [] => some s
  | i :: rest =>
    match s.stepProc i with
    | none => none
    | some s' => s'.advanceLoop rest

/-- `for p in self.processes: p.simulate()`. -/
def MLFQScheduler.advanceAll (s : MLFQScheduler) : Option MLFQScheduler :=
  s.advanceLoop (List.range s.processes.length)

/-- End-of-tick bookkeeping of the level-0 round-robin queue: it advances
its quantum timer; an expiry demotes the evicted process (priority + 1),
adds it to the level-1 queue, deschedules it and frees the CPU. -/
def MLFQScheduler.queueTick0 (s : MLFQScheduler) : Option MLFQScheduler :=
  match RRQueue.simulate s.processes s.rr0 with
  | none => none
  | some (q0, flag0) =>
    let s := { s with rr0 := q0 }
    if flag0 then
      some s
    else
      match s.rr0.lastRemoved with
      | none => none
      | some removed =>
        match s.priorities.get? removed with
        | none => none
        | some pr =>
          let s := { s with priorities := s.priorities.set removed (pr + 1),
                            rr1 := s.rr1.addProcess removed }
          match s.processes.get? removed with
          | none => none
          | some p =>
            match p.descheduleFromCPU with
            | none => none
            | some p' =>
              some { s with processes := s.processes.set removed p', cpu := none }

/-- End-of-tick bookkeeping of the level-1 round-robin queue: as for
level 0, but an evicted process is demoted onto the FIFO queue. -/
def MLFQScheduler.queueTick1 (s : MLFQScheduler) : Option MLFQScheduler :=
  match RRQueue.simulate s.processes s.rr1 with
  | none => none
  | some (q1, flag1) =>
    let s := { s with rr1 := q1 }
    if flag1 then
      some s
    else
      match s.rr1.lastRemoved with
      | none => none
      | some removed =>
        match s.priorities.get? removed with
        | none => none
        | some pr =>
          let s := { s with priorities := s.priorities.set removed (pr + 1),
                            fcfs_queue := s.fcfs_queue ++ [removed] }
          match s.processes.get? removed with
          | none => none
          | some p =>
            match p.descheduleFromCPU with
            | none => none
            | some p' =>
              some { s with processes := s.processes.set removed p', cpu := none }

/-- End-of-tick bookkeeping of the two round-robin queues, level 0 then
level 1. -/
def MLFQScheduler.queuePhase (s : MLFQScheduler) : Option MLFQScheduler :=
  (s.queueTick0).bind MLFQScheduler.queueTick1

/-- Everything `MLFQScheduler.simulate` does after the scheduling
decision: time accounting, the process advance loop, the round-robin
bookkeeping, and the all-done return value. -/
def MLFQScheduler.afterDecision (s : MLFQScheduler) : Option (MLFQScheduler × Bool) :=
  let s := if s.cpu.isSome then { s with cpu_time := s.cpu_time + 1 } else s
  let s := { s with total_time := s.total_time + 1 }
  match s.advanceAll with
  | none => none
  | some s =>
    match s.queuePhase with
    | none => none
    | some s => some (s, decide (s.done = s.n))

/-- `MLFQScheduler.simulate`: one tick. -/
def MLFQScheduler.simulate (s : MLFQScheduler) : Option (MLFQScheduler × Bool) :=
  if s.done = s.n then
    some (s, true)
  else
    (MLFQScheduler.decision s).bind MLFQScheduler.afterDecision

/-- `while not scheduler.simulate(): pass`, run for a bounded number of
ticks. -/
def MLFQScheduler.run : Nat → MLFQScheduler → Option MLFQScheduler
  | 0, s => some s
  | k + 1, s =>
    match s.simulate with
    | none => none
    | some (s', _) => MLFQScheduler.run k s'





/-! ## The Process state machine: reachability and well-formedness -/

/-- States of a single `Process` reachable from construction through the
operations a scheduler may invoke on it: ticks, `scheduleOnCPU`,
`descheduleFromCPU` (successful ones — a Python `assert` failure aborts
the run). -/
inductive PReach (id : Nat) (t : List Int) : Process → Prop where
  | init : PReach id t (Process.init id t)
  | tick {p q b e} : PReach id t p → p.simulate = some (q, b, e) → PReach id t q
  | onCPU {p q} : PReach id t p → p.scheduleOnCPU = some q → PReach id t q
  | offCPU {p q} : PReach id t p → p.descheduleFromCPU = some q → PReach id t q

theorem evens_length : ∀ (t : List Int), (evens t).length = (t.length + 1) / 2
  | [] => by simp [evens]
  | [_] => by simp [evens]
  | _ :: _ :: r => by
    have ih := evens_length r
    simp only [evens, List.length_cons, ih]
    omega

theorem odds_length : ∀ (t : List Int), (odds t).length = t.length / 2
  | [] => by simp [odds]
  | [_] => by simp [odds]
  | _ :: _ :: r => by
    have ih := odds_length r
    simp only [odds, List.length_cons, ih]
    omega

theorem mem_evens : ∀ (t : List Int), ∀ x ∈ evens t, x ∈ t
  | [], x, hx => by simp [evens] at hx
  | [_], x, hx => by
    simp only [evens] at hx
    simpa using hx
  | a :: _ :: r, x, hx => by
    simp only [evens, List.mem_cons] at hx ⊢
    rcases hx with h | h
    · exact Or.inl h
    · exact Or.inr (Or.inr (mem_evens r x h))

theorem mem_odds : ∀ (t : List Int), ∀ x ∈ odds t, x ∈ t
  | [], x, hx => by simp [odds] at hx
  | [_], x, hx => by simp [odds] at hx
  | _ :: b :: r, x, hx => by
    simp only [odds, List.mem_cons] at hx ⊢
    rcases hx with h | h
    · exact Or.inr (Or.inl h)
    · exact Or.inr (Or.inr (mem_odds r x h))

/-- Well-formedness of a `Process` built from an odd-length workload of
positive durations: the sizes recorded at construction, positivity of
every not-yet-finished duration, and the cursor/mode relationships. -/
structure PWF (t : List Int) (p : Process) : Prop where
  hodd : t.length % 2 = 1
  hn : p.n = t.length
  hbl : p.burst_times.length = (t.length + 1) / 2
  hil : p.io_times.length = t.length / 2
  hburst_pos : ∀ j, p.idx_burst ≤ j → ∀ hj : j < p.burst_times.length,
    1 ≤ p.burst_times.get ⟨j, hj⟩
  hio_pos : ∀ j, p.idx_io ≤ j → ∀ hj : j < p.io_times.length,
    1 ≤ p.io_times.get ⟨j, hj⟩
  hrb : p.mode = Mode.ready ∨ p.mode = Mode.burst →
    p.idx_io = p.idx_burst ∧ p.idx_burst < p.burst_times.length
  hi : p.mode = Mode.io →
    p.idx_io + 1 = p.idx_burst ∧ p.idx_burst < p.burst_times.length ∧
    p.idx_io < p.io_times.length
  hd : p.mode = Mode.done →
    p.idx_burst = p.burst_times.length ∧ p.idx_io = p.io_times.length

theorem PWF_init (t : List Int) (id : Nat)
    (hodd : t.length % 2 = 1) (hpos : ∀ x ∈ t, 1 ≤ x) :
    PWF t (Process.init id t) := by
  refine ⟨hodd, rfl, evens_length t, odds_length t, ?_, ?_, ?_, ?_, ?_⟩
  · intro j _ hj
    exact hpos _ (mem_evens t _ (List.get_mem _ j hj))
  · intro j _ hj
    exact hpos _ (mem_odds t _ (List.get_mem _ j hj))
  · intro _
    refine ⟨rfl, ?_⟩
    simp only [Process.init, evens_length]
    omega
  · intro h
    exact absurd h (by simp [Process.init])
  · intro h
    exact absurd h (by simp [Process.init])

/-- Entries at or past a (possibly advanced) cursor stay positive after
writing a value at the old cursor. -/
theorem pos_after_set {l : List Int} {i : Nat} {x : Int} {k : Nat}
    (hpos : ∀ j, i ≤ j → ∀ hj : j < l.length, 1 ≤ l.get ⟨j, hj⟩)
    (hk : k = i + 1 ∨ (k = i ∧ 1 ≤ x)) :
    ∀ j, k ≤ j → ∀ hj : j < (l.set i x).length, 1 ≤ (l.set i x).get ⟨j, hj⟩ := by
  intro j hkj hj
  have hj' : j < l.length := by simpa using hj
  simp only [List.get_eq_getElem, List.getElem_set]
  by_cases hij : i = j
  · subst hij
    rcases hk with hk | ⟨_, hx⟩
    · omega
    · simpa using hx
  · simp only [hij, if_false]
    exact hpos j (by omega) hj'

theorem PWF_simulate {t : List Int} {p q : Process} {b : Bool} {e : PEvent}
    (hw : PWF t p) (h : p.simulate = some (q, b, e)) : PWF t q := by
  obtain ⟨hodd, hn, hbl, hil, hbp, hip, hrb, hi, hd⟩ := hw
  have hbl1 : t.length / 2 + 1 = (t.length + 1) / 2 := by omega
  cases hm : p.mode
  case done =>
    simp only [Process.simulate, hm, if_pos, reduceIte, Option.some.injEq,
      Prod.mk.injEq] at h
    obtain ⟨rfl, -, -⟩ := h
    exact ⟨hodd, hn, hbl, hil, hbp, hip, hrb, hi, hd⟩
  case ready =>
    simp only [Process.simulate, hm, reduceIte, Option.some.injEq, Prod.mk.injEq] at h
    obtain ⟨rfl, -, -⟩ := h
    refine ⟨hodd, hn, hbl, hil, hbp, hip, ?_, ?_, ?_⟩
    · intro _; exact hrb (Or.inl hm)
    · intro hbad; simp [hm] at hbad
    · intro hbad; simp [hm] at hbad
  case burst =>
    obtain ⟨hidx_eq, hlt⟩ := hrb (Or.inr hm)
    simp only [Process.simulate, hm, reduceCtorEq, reduceIte] at h
    rcases hg : p.burst_times.get? p.idx_burst with _ | bv
    · rw [hg] at h
      exact Option.noConfusion h
    · simp only [hg] at h
      have hbv : 1 ≤ bv := by
        have h2 := List.get?_eq_get hlt
        rw [hg] at h2
        rw [Option.some.inj h2]
        exact hbp p.idx_burst (le_refl _) hlt
      by_cases hz : bv - 1 = 0
      · simp only [hz, reduceIte] at h
        by_cases hlast : p.idx_burst + 1 = p.n / 2 + 1
        · simp only [hlast, reduceIte, Option.some.injEq, Prod.mk.injEq] at h
          obtain ⟨rfl, -, -⟩ := h
          refine ⟨hodd, hn, by simpa using hbl, by simpa using hil, ?_, hip, ?_, ?_, ?_⟩
          · refine pos_after_set hbp (Or.inl ?_)
            dsimp only
            omega
          · intro hbad; simp at hbad
          · intro hbad; simp at hbad
          · intro _
            constructor
            · dsimp only
              simp only [List.length_set]
              omega
            · dsimp only
              omega
        · simp only [hlast, reduceIte, Option.some.injEq, Prod.mk.injEq] at h
          obtain ⟨rfl, -, -⟩ := h
          refine ⟨hodd, hn, by simpa using hbl, by simpa using hil, ?_, hip, ?_, ?_, ?_⟩
          · refine pos_after_set hbp (Or.inl ?_)
            dsimp only
          · intro hbad; simp at hbad
          · intro _
            refine ⟨by dsimp only; omega, ?_, ?_⟩
            · dsimp only
              simp only [List.length_set]
              omega
            · dsimp only
              omega
          · intro hbad; simp at hbad
      · simp only [hz, reduceIte, Option.some.injEq, Prod.mk.injEq] at h
        obtain ⟨rfl, -, -⟩ := h
        refine ⟨hodd, hn, by simpa using hbl, by simpa using hil, ?_, hip, ?_, ?_, ?_⟩
        · refine pos_after_set hbp (Or.inr ⟨?_, ?_⟩)
          · dsimp only
          · omega
        · intro _
          dsimp only
          simp only [List.length_set]
          exact ⟨hidx_eq, hlt⟩
        · intro hbad; simp [hm] at hbad
        · intro hbad; simp [hm] at hbad
  case io =>
    obtain ⟨hio_eq, hblt, hilt⟩ := hi hm
    simp only [Process.simulate, hm, reduceCtorEq, reduceIte] at h
    rcases hg : p.io_times.get? p.idx_io with _ | bv
    · rw [hg] at h
      exact Option.noConfusion h
    · simp only [hg] at h
      have hbv : 1 ≤ bv := by
        have h2 := List.get?_eq_get hilt
        rw [hg] at h2
        rw [Option.some.inj h2]
        exact hip p.idx_io (le_refl _) hilt
      by_cases hz : bv - 1 = 0
      · simp only [hz, reduceIte, Option.some.injEq, Prod.mk.injEq] at h
        obtain ⟨rfl, -, -⟩ := h
        refine ⟨hodd, hn, by simpa using hbl, by simpa using hil, hbp, ?_, ?_, ?_, ?_⟩
        · refine pos_after_set hip (Or.inl ?_)
          dsimp only
        · intro _
          refine ⟨by dsimp only; omega, ?_⟩
          dsimp only
          exact hblt
        · intro hbad; simp at hbad
        · intro hbad; simp at hbad
      · simp only [hz, reduceIte, Option.some.injEq, Prod.mk.injEq] at h
        obtain ⟨rfl, -, -⟩ := h
        refine ⟨hodd, hn, by simpa using hbl, by simpa using hil, hbp, ?_, ?_, ?_, ?_⟩
        · refine pos_after_set hip (Or.inr ⟨?_, ?_⟩)
          · dsimp only
          · omega
        · intro hbad; simp [hm] at hbad
        · intro _
          dsimp only
          simp only [List.length_set]
          exact ⟨hio_eq, hblt, hilt⟩
        · intro hbad; simp [hm] at hbad

theorem PWF_scheduleOnCPU {t : List Int} {p q : Process}
    (hw : PWF t p) (h : p.scheduleOnCPU = some q) : PWF t q := by
  obtain ⟨hodd, hn, hbl, hil, hbp, hip, hrb, hi, hd⟩ := hw
  simp only [Process.scheduleOnCPU] at h
  by_cases hm : p.mode = Mode.ready
  · simp only [hm, reduceIte, Option.some.injEq] at h
    subst h
    refine ⟨hodd, hn, hbl, hil, hbp, hip, ?_, ?_, ?_⟩
    · intro _; exact hrb (Or.inl hm)
    · intro hbad; simp at hbad
    · intro hbad; simp at hbad
  · rw [if_neg hm] at h
    exact Option.noConfusion h

theorem PWF_descheduleFromCPU {t : List Int} {p q : Process}
    (hw : PWF t p) (h : p.descheduleFromCPU = some q) : PWF t q := by
  obtain ⟨hodd, hn, hbl, hil, hbp, hip, hrb, hi, hd⟩ := hw
  simp only [Process.descheduleFromCPU] at h
  by_cases hm : p.mode = Mode.burst
  · simp only [hm, reduceIte, Option.some.injEq] at h
    subst h
    refine ⟨hodd, hn, hbl, hil, hbp, hip, ?_, ?_, ?_⟩
    · intro _; exact hrb (Or.inr hm)
    · intro hbad; simp at hbad
    · intro hbad; simp at hbad
  · rw [if_neg hm] at h
    exact Option.noConfusion h

theorem PReach_PWF {id : Nat} {t : List Int} {p : Process}
    (hodd : t.length % 2 = 1) (hpos : ∀ x ∈ t, 1 ≤ x)
    (hr : PReach id t p) : PWF t p := by
  induction hr with
  | init => exact PWF_init t id hodd hpos
  | tick _ h ih => exact PWF_simulate ih h
  | onCPU _ h ih => exact PWF_scheduleOnCPU ih h
  | offCPU _ h ih => exact PWF_descheduleFromCPU ih h

/-- A well-formed process never ticks into an index error. -/
theorem PWF_simulate_isSome {t : List Int} {p : Process} (hw : PWF t p) :
    p.simulate ≠ none := by
  obtain ⟨hodd, hn, hbl, hil, hbp, hip, hrb, hi, hd⟩ := hw
  cases hm : p.mode
  case done => simp [Process.simulate, hm]
  case ready => simp [Process.simulate, hm]
  case burst =>
    obtain ⟨-, hlt⟩ := hrb (Or.inr hm)
    have hg : p.burst_times.get? p.idx_burst =
        some (p.burst_times.get ⟨p.idx_burst, hlt⟩) := List.get?_eq_get hlt
    simp only [Process.simulate, hm, reduceCtorEq, reduceIte, hg]
    split
    · split <;> simp
    · simp
  case io =>
    obtain ⟨-, -, hilt⟩ := hi hm
    have hg : p.io_times.get? p.idx_io =
        some (p.io_times.get ⟨p.idx_io, hilt⟩) := List.get?_eq_get hilt
    simp only [Process.simulate, hm, reduceCtorEq, reduceIte, hg]
    split <;> simp

/-! ## Claim C1 -/

/-- C1, counterexample: the end-of-workload test `idx_burst == n//2 + 1`
does not recognise the last burst of an even-length workload.  For the
workload `[1, 1]` (one burst, one I/O phase), after the admissible
operation sequence schedule–tick–tick–schedule the process is in mode
'burst' with its burst cursor equal to the length of the burst list (all
bursts consumed, yet not 'done'), and the next tick indexes the burst
list out of bounds (an `IndexError` in Python, `none` here) instead of
completing the process. -/
theorem claim_C1_counterexample :
    (((Process.init 0 [1, 1]).scheduleOnCPU.bind (Process.runTicks 2)).bind
        Process.scheduleOnCPU).map
      (fun p => (p.mode, p.idx_burst, p.burst_times.length, p.simulate)) =
    some (Mode.burst, 1, 1, none) := by
  rfl

/-- C1, amended to odd-length workloads: for every workload sequence of
positive integers of odd length, in every state reachable by ticking the
process (with arbitrary interleaved successful schedule/deschedule
calls), the next tick stays in bounds, the process is in mode 'done'
exactly when the burst cursor has passed the final burst (which the test
`idx_burst == n//2 + 1` then recognises), and both cursors are within
their lists. -/
theorem claim_C1_amended {id : Nat} {t : List Int} {p : Process}
    (hodd : t.length % 2 = 1) (hpos : ∀ x ∈ t, 1 ≤ x) (hr : PReach id t p) :
    p.simulate ≠ none ∧
    (p.mode = Mode.done ↔ p.idx_burst = p.burst_times.length) ∧
    p.idx_burst ≤ p.burst_times.length ∧ p.idx_io ≤ p.io_times.length := by
  have hw := PReach_PWF hodd hpos hr
  have hb : p.idx_burst ≤ p.burst_times.length := by
    cases hm : p.mode
    case ready => exact Nat.le_of_lt (hw.hrb (Or.inl hm)).2
    case burst => exact Nat.le_of_lt (hw.hrb (Or.inr hm)).2
    case io => exact Nat.le_of_lt (hw.hi hm).2.1
    case done => exact Nat.le_of_eq (hw.hd hm).1
  have hio2 : p.idx_io ≤ p.io_times.length := by
    have hbl := hw.hbl
    have hil := hw.hil
    have hodd' := hw.hodd
    cases hm : p.mode
    case ready =>
      obtain ⟨h1, h2⟩ := hw.hrb (Or.inl hm)
      omega
    case burst =>
      obtain ⟨h1, h2⟩ := hw.hrb (Or.inr hm)
      omega
    case io => exact Nat.le_of_lt (hw.hi hm).2.2
    case done => exact Nat.le_of_eq (hw.hd hm).2
  refine ⟨PWF_simulate_isSome hw, ?_, hb, hio2⟩
  constructor
  · intro hdn
    exact (hw.hd hdn).1
  · intro heq
    cases hm : p.mode
    case ready =>
      exfalso
      have := (hw.hrb (Or.inl hm)).2
      omega
    case burst =>
      exfalso
      have := (hw.hrb (Or.inr hm)).2
      omega
    case io =>
      exfalso
      have := (hw.hi hm).2.1
      omega
    case done => rfl

/-- Witness for C1's amended theorem, at the one-burst workload `[3]`. -/
theorem claim_C1_amended_witness :
    (Process.init 0 [3]).simulate ≠ none ∧
    ((Process.init 0 [3]).mode = Mode.done ↔
      (Process.init 0 [3]).idx_burst = (Process.init 0 [3]).burst_times.length) ∧
    (Process.init 0 [3]).idx_burst ≤ (Process.init 0 [3]).burst_times.length ∧
    (Process.init 0 [3]).idx_io ≤ (Process.init 0 [3]).io_times.length :=
  claim_C1_amended (by decide) (by decide) PReach.init

/-! ## Claims C3 and C4: the two concrete end-to-end examples -/

/-- C4: FCFS on P0 = [4] and P1 = [3].  After the 7 ticks that end the
simulation: P0 finished with waiting 0, turnaround 4, response 0; P1
finished with waiting 4, turnaround 7, response 4; total time 7 with the
CPU busy on all 7 ticks (utilization 100%) and both processes done.
Response 0 records that P0 was scheduled at t = 0, and the 7th tick is
the first whose return value reports completion. -/
theorem claim_C4 :
    (((FCFSScheduler.init [[4], [3]]).bind (FCFSScheduler.run 7)).map
      (fun s => (s.total_time, s.cpu_time, s.done, s.n,
        s.processes.map
          (fun p => (p.mode, p.waiting_time, p.turnaround_time, p.response_time)))) =
    some (7, 7, 2, 2,
      [(Mode.done, 0, 4, some 0), (Mode.done, 4, 7, some 4)])) ∧
    (((FCFSScheduler.init [[4], [3]]).bind (FCFSScheduler.run 6)).map
      (fun s => s.done) = some 1) := by
  exact ⟨rfl, rfl⟩

/-- C3: MLFQ on the single process [12].  After tick 5 the process has
been demoted to priority 1 at the level-0 quantum expiry (after running
ticks 1–5 at priority 0) and sits in the level-1 queue; at tick 12 it
completes with turnaround 12, waiting 0, response 0, total time 12 and
the CPU busy on every tick; after tick 4 it is still at priority 0. -/
theorem claim_C3 :
    (((MLFQScheduler.init [[12]]).bind (MLFQScheduler.run 12)).map
      (fun s => (s.total_time, s.cpu_time, s.done, s.n, s.priorities,
        s.processes.map
          (fun p => (p.mode, p.waiting_time, p.turnaround_time, p.response_time)))) =
    some (12, 12, 1, 1, [1], [(Mode.done, 0, 12, some 0)])) ∧
    (((MLFQScheduler.init [[12]]).bind (MLFQScheduler.run 5)).map
      (fun s => (s.priorities, s.cpu, s.rr0.queue, s.rr1.queue,
        s.processes.map Process.waiting_time)) =
    some ([1], none, [], [0], [0])) ∧
    (((MLFQScheduler.init [[12]]).bind (MLFQScheduler.run 4)).map
      (fun s => s.priorities) = some [0]) ∧
    (((MLFQScheduler.init [[12]]).bind (MLFQScheduler.run 11)).map
      (fun s => s.done) = some 0) := by
  exact ⟨rfl, rfl, rfl, rfl⟩

/-! ## Claim C9: ticking a done process is idempotent -/

/-- C9: a process in mode 'done' is returned unchanged by `simulate`
(which reports `True`), and any number of further ticks leave every
field — counters, cursors, remaining durations — unchanged. -/
theorem claim_C9 (p : Process) (k : Nat) (hm : p.mode = Mode.done) :
    p.simulate = some (p, true, PEvent.noEv) ∧ Process.runTicks k p = some p := by
  have hs : p.simulate = some (p, true, PEvent.noEv) := by
    simp [Process.simulate, hm]
  refine ⟨hs, ?_⟩
  induction k with
  | zero => rfl
  | succ k ih => simp [Process.runTicks, hs, ih]

/-- Witness for C9 at a concrete finished process. -/
theorem claim_C9_witness :
    ({ Process.init 0 [1] with mode := Mode.done }).simulate =
      some ({ Process.init 0 [1] with mode := Mode.done }, true, PEvent.noEv) ∧
    Process.runTicks 3 { Process.init 0 [1] with mode := Mode.done } =
      some { Process.init 0 [1] with mode := Mode.done } :=
  claim_C9 { Process.init 0 [1] with mode := Mode.done } 3 rfl

/-! ## Claim C8: response time -/

/-- A tick never changes `response_time` and never decreases
`turnaround_time`. -/
theorem simulate_response_turnaround {p : Process} {x : Process × Bool × PEvent}
    (h : p.simulate = some x) :
    x.1.response_time = p.response_time ∧ p.turnaround_time ≤ x.1.turnaround_time := by
  simp only [Process.simulate] at h
  repeat' split at h
  all_goals
    first
      | exact Option.noConfusion h
      | (obtain rfl := Option.some.inj h
         refine ⟨rfl, ?_⟩
         dsimp only
         omega)

/-- `scheduleOnCPU` keeps `turnaround_time`, and either keeps an already
recorded `response_time` or records the current `turnaround_time` into an
unset one. -/
theorem scheduleOnCPU_response {p q : Process} (h : p.scheduleOnCPU = some q) :
    q.turnaround_time = p.turnaround_time ∧
    (q.response_time = p.response_time ∨
      (p.response_time = none ∧ q.response_time = some p.turnaround_time)) := by
  simp only [Process.scheduleOnCPU] at h
  split at h
  · obtain rfl := Option.some.inj h
    refine ⟨rfl, ?_⟩
    cases hr : p.response_time
    · right
      exact ⟨rfl, by simp [hr]⟩
    · left
      simp [hr]
  · exact Option.noConfusion h

/-- In every reachable process state, a recorded response time is bounded
by the current turnaround time. -/
theorem response_le_turnaround {id : Nat} {t : List Int} {p : Process}
    (hr : PReach id t p) :
    ∀ r, p.response_time = some r → r ≤ p.turnaround_time := by
  induction hr with
  | init =>
    intro r hr0
    exact absurd hr0 (by simp [Process.init])
  | tick _ h ih =>
    intro r hr0
    obtain ⟨hresp, hta⟩ := simulate_response_turnaround h
    exact le_trans (ih r (hresp ▸ hr0)) hta
  | onCPU _ h ih =>
    intro r hr0
    obtain ⟨hta, hresp⟩ := scheduleOnCPU_response h
    rcases hresp with hresp | ⟨-, hresp⟩
    · rw [hta]
      exact ih r (hresp ▸ hr0)
    · rw [hresp] at hr0
      obtain rfl := Option.some.inj hr0
      omega
  | offCPU _ h ih =>
    intro r hr0
    simp only [Process.descheduleFromCPU] at h
    split at h
    · obtain rfl := Option.some.inj h
      exact ih r hr0
    · exact Option.noConfusion h

/-- C8: `response_time` is assigned exactly once, at the first
`scheduleOnCPU` (taking the then-current `turnaround_time`); later
`scheduleOnCPU` calls never overwrite it, ticks and descheduling never
touch it, and in every reachable state — in particular at completion — a
recorded response time satisfies `response_time ≤ turnaround_time`. -/
theorem claim_C8 :
    (∀ p q : Process, p.response_time = none → p.scheduleOnCPU = some q →
      q.response_time = some p.turnaround_time) ∧
    (∀ (p q : Process) (r : Nat), p.response_time = some r →
      p.scheduleOnCPU = some q → q.response_time = some r) ∧
    (∀ (p : Process) (x : Process × Bool × PEvent), p.simulate = some x →
      x.1.response_time = p.response_time) ∧
    (∀ p q : Process, p.descheduleFromCPU = some q →
      q.response_time = p.response_time) ∧
    (∀ (id : Nat) (t : List Int) (p : Process), PReach id t p →
      ∀ r, p.response_time = some r → r ≤ p.turnaround_time) := by
  refine ⟨?_, ?_, ?_, ?_, ?_⟩
  · intro p q hnone h
    simp only [Process.scheduleOnCPU] at h
    split at h
    · obtain rfl := Option.some.inj h
      simp [hnone]
    · exact Option.noConfusion h
  · intro p q r hsome h
    simp only [Process.scheduleOnCPU] at h
    split at h
    · obtain rfl := Option.some.inj h
      simp [hsome]
    · exact Option.noConfusion h
  · intro p x h
    exact (simulate_response_turnaround h).1
  · intro p q h
    simp only [Process.descheduleFromCPU] at h
    split at h
    · obtain rfl := Option.some.inj h
      rfl
    · exact Option.noConfusion h
  · intro id t p hr
    exact response_le_turnaround hr

/-! ## Claim C10: the frame of processReady -/

/-- C10: `MLFQScheduler.processReady` appends the id to the FIFO tail
when the recorded priority is 2 and changes nothing else; at priority 0
or 1 the whole scheduler state is left untouched. -/
theorem claim_C10 (s : MLFQScheduler) (id pr : Nat)
    (hpr : s.priorities.get? id = some pr) :
    (pr = 0 ∨ pr = 1 → s.processReady id = some s) ∧
    (pr = 2 → s.processReady id =
      some { s with fcfs_queue := s.fcfs_queue ++ [id] }) := by
  constructor
  · intro h01
    simp only [MLFQScheduler.processReady, hpr]
    rcases h01 with rfl | rfl <;> simp
  · intro h2
    subst h2
    simp only [MLFQScheduler.processReady, hpr]
    simp

/-- Witness for C10, at a concrete two-process scheduler state with
priorities `[2, 0]`. -/
theorem claim_C10_witness :
    (2 = 0 ∨ 2 = 1 →
      MLFQScheduler.processReady
        { processes := mkProcs [[1], [1]], n := 2, rr0 := RRQueue.mk0 [1] 5 false,
          rr1 := RRQueue.mk0 [] 10 false, fcfs_queue := [], priorities := [2, 0],
          cpu := none, total_time := 0, cpu_time := 0, done := 0 } 0 =
      some { processes := mkProcs [[1], [1]], n := 2, rr0 := RRQueue.mk0 [1] 5 false,
             rr1 := RRQueue.mk0 [] 10 false, fcfs_queue := [], priorities := [2, 0],
             cpu := none, total_time := 0, cpu_time := 0, done := 0 }) ∧
    (2 = 2 →
      MLFQScheduler.processReady
        { processes := mkProcs [[1], [1]], n := 2, rr0 := RRQueue.mk0 [1] 5 false,
          rr1 := RRQueue.mk0 [] 10 false, fcfs_queue := [], priorities := [2, 0],
          cpu := none, total_time := 0, cpu_time := 0, done := 0 } 0 =
      some { processes := mkProcs [[1], [1]], n := 2, rr0 := RRQueue.mk0 [1] 5 false,
             rr1 := RRQueue.mk0 [] 10 false, fcfs_queue := [0], priorities := [2, 0],
             cpu := none, total_time := 0, cpu_time := 0, done := 0 }) :=
  claim_C10
    { processes := mkProcs [[1], [1]], n := 2, rr0 := RRQueue.mk0 [1] 5 false,
      rr1 := RRQueue.mk0 [] 10 false, fcfs_queue := [], priorities := [2, 0],
      cpu := none, total_time := 0, cpu_time := 0, done := 0 } 0 2 rfl

/-! ## Claim C2: quantum expiry and the elapsed-slot counter -/

/-- The circular ready-scan touches only the cursor and the
activity/runner fields. -/
theorem nextReadyLoop_fields {procs : List Process} :
    ∀ (fuel : Nat) (q q' : RRQueue), RRQueue.nextReadyLoop procs q fuel = some q' →
      q'.queue = q.queue ∧ q'.time = q.time ∧ q'.quantum = q.quantum ∧
      q'.lastRemoved = q.lastRemoved
  | 0, q, q', h => by
    simp only [RRQueue.nextReadyLoop] at h
    obtain rfl := Option.some.inj h
    exact ⟨rfl, rfl, rfl, rfl⟩
  | fuel + 1, q, q', h => by
    simp only [RRQueue.nextReadyLoop] at h
    split at h
    · exact Option.noConfusion h
    · split at h
      · exact Option.noConfusion h
      · split at h
        · obtain rfl := Option.some.inj h
          exact ⟨rfl, rfl, rfl, rfl⟩
        · obtain ⟨h1, h2, h3, h4⟩ := nextReadyLoop_fields fuel _ q' h
          exact ⟨h1, h2, h3, h4⟩

/-- `nextReadyProcess` touches only the cursor and the activity/runner
fields. -/
theorem nextReadyProcess_fields {procs : List Process} {q q' : RRQueue}
    (h : RRQueue.nextReadyProcess procs q = some q') :
    q'.queue = q.queue ∧ q'.time = q.time ∧ q'.quantum = q.quantum ∧
    q'.lastRemoved = q.lastRemoved := by
  simp only [RRQueue.nextReadyProcess] at h
  split at h
  · obtain rfl := Option.some.inj h
    exact ⟨rfl, rfl, rfl, rfl⟩
  · split at h
    · exact Option.noConfusion h
    · exact nextReadyLoop_fields _ _ q' h

/-- C2 (amended): forced rotation is governed by the queue's elapsed-slot
counter, not by a per-member count of its own running ticks.  A queue
tick rotates (returns `false`) exactly when the queue is active and the
incremented counter reaches the quantum; the evicted, handed-off member
is the one at the rotation cursor; deactivation (`makeInactive`, used for
higher-priority preemption) and reactivation (`makeActive`) both leave
the counter — and the membership sequence — unchanged, so the slot
resumes where it was interrupted.  (The counter increments once per
active tick, so when the runner changes mid-tick after an I/O departure
or a completion the new runner inherits that tick's increment, and can
be rotated after `quantum - 1` ticks of its own — the counterexample.) -/
theorem claim_C2_amended :
    (∀ (procs : List Process) (q : RRQueue) (r : RRQueue × Bool),
      RRQueue.simulate procs q = some r →
      (r.2 = false ↔ q.isActive = true ∧ q.time + 1 = q.quantum)) ∧
    (∀ (procs : List Process) (q q' : RRQueue),
      RRQueue.simulate procs q = some (q', false) →
      q'.lastRemoved = q.queue.get? q.idx ∧ q'.time = 0) ∧
    (∀ q : RRQueue, (q.makeInactive).time = q.time ∧
      (q.makeInactive).queue = q.queue ∧ (q.makeInactive).idx = q.idx ∧
      (q.makeInactive).quantum = q.quantum) ∧
    (∀ (procs : List Process) (q : RRQueue) (r : RRQueue × Bool),
      RRQueue.makeActive procs q = some r →
      r.1.time = q.time ∧ r.1.queue = q.queue ∧ r.1.quantum = q.quantum) := by
  refine ⟨?_, ?_, ?_, ?_⟩
  · intro procs q r h
    simp only [RRQueue.simulate] at h
    split at h
    · rename_i hact
      obtain rfl := Option.some.inj h
      constructor
      · intro hfalse
        exact absurd hfalse (by simp)
      · rintro ⟨hact2, -⟩
        rw [hact] at hact2
        exact Bool.noConfusion hact2
    · rename_i hact
      rw [Bool.not_eq_false] at hact
      split at h
      · rename_i hq
        split at h
        · exact Option.noConfusion h
        · rename_i rid hg
          split at h
          · exact Option.noConfusion h
          · rename_i q2 hnx
            obtain rfl := Option.some.inj h
            constructor
            · intro _
              exact ⟨hact, by simpa using hq⟩
            · intro _
              rfl
      · rename_i hq
        obtain rfl := Option.some.inj h
        constructor
        · intro hfalse
          exact absurd hfalse (by simp)
        · rintro ⟨-, htime⟩
          exact absurd htime hq
  · intro procs q q' h
    simp only [RRQueue.simulate] at h
    split at h
    · obtain h2 := Option.some.inj h
      exact absurd (congrArg Prod.snd h2) (by simp)
    · split at h
      · split at h
        · exact Option.noConfusion h
        · rename_i rid hg
          split at h
          · exact Option.noConfusion h
          · rename_i q2 hnx
            obtain h2 := Option.some.inj h
            obtain rfl : q2 = q' := congrArg Prod.fst h2
            obtain ⟨-, htime, -, hlast⟩ := nextReadyProcess_fields hnx
            constructor
            · rw [hlast]
              rw [hg]
              split <;> split <;> rfl
            · rw [htime]
              split <;> split <;> rfl
      · obtain h2 := Option.some.inj h
        exact absurd (congrArg Prod.snd h2) (by simp)
  · intro q
    exact ⟨rfl, rfl, rfl, rfl⟩
  · intro procs q r h
    simp only [RRQueue.makeActive] at h
    split at h
    · obtain rfl := Option.some.inj h
      exact ⟨rfl, rfl, rfl⟩
    · split at h
      · obtain rfl := Option.some.inj h
        exact ⟨rfl, rfl, rfl⟩
      · rcases hnx : RRQueue.nextReadyProcess procs { q with isActive := true }
            with _ | q2
        · rw [hnx] at h
          exact Option.noConfusion h
        · rw [hnx] at h
          obtain rfl := Option.some.inj h
          obtain ⟨hqueue, htime, hquant, -⟩ := nextReadyProcess_fields hnx
          exact ⟨htime, hqueue, hquant⟩

/-- C2, counterexample to the claim as stated: MLFQ on the workload
P0 = [1, 1, 1], P1 = [6], level-0 quantum 5.  P0 runs tick 1 and departs
to I/O mid-tick; the level-0 queue selects P1 as its new runner and the
end-of-tick queue bookkeeping already charges tick 1 to P1's slot.  P1
then runs ticks 2–5 on the CPU.  At the end of tick 5 the slot counter
reaches the quantum and P1 is rotated out and demoted to priority 1 —
after only 4 ticks of its own running (its turnaround 5 minus its 1
waiting tick, with no I/O phases), fewer than the quantum 5.  After tick
4 it was still at priority 0, so the rotation is the tick-5 one. -/
theorem claim_C2_counterexample :
    (((MLFQScheduler.init [[1, 1, 1], [6]]).bind (MLFQScheduler.run 5)).map
      (fun s => (s.priorities, s.rr0.quantum,
        (s.processes.get? 1).map
          (fun p => (p.mode, p.waiting_time, p.turnaround_time, p.io_times)))) =
    some ([0, 1], 5, some (Mode.ready, 1, 5, []))) ∧
    (((MLFQScheduler.init [[1, 1, 1], [6]]).bind (MLFQScheduler.run 4)).map
      (fun s => s.priorities) = some [0, 0]) := by
  exact ⟨rfl, rfl⟩

/-! ## Helper lemmas for the scheduler invariants -/

theorem get?_set_ne {α : Type} {l : List α} {i j : Nat} (h : i ≠ j) (a : α) :
    (l.set i a).get? j = l.get? j := by
  simp [List.get?_eq_getElem?, List.getElem?_set_ne h]

theorem get?_set_self {α : Type} {l : List α} {i : Nat} (h : i < l.length) (a : α) :
    (l.set i a).get? i = some a := by
  simp [List.get?_eq_getElem?, List.getElem?_set_self h]

theorem lt_of_get?_eq_some {α : Type} {l : List α} {i : Nat} {a : α}
    (h : l.get? i = some a) : i < l.length := by
  rw [List.get?_eq_getElem?] at h
  exact (List.getElem?_eq_some_iff.mp h).1

theorem mem_of_get?_eq_some {α : Type} {l : List α} {i : Nat} {a : α}
    (h : l.get? i = some a) : a ∈ l := by
  rw [List.get?_eq_getElem?] at h
  obtain ⟨hlt, rfl⟩ := List.getElem?_eq_some_iff.mp h
  exact List.getElem_mem hlt

theorem mkProcs_get? (times : List (List Int)) (i : Nat) :
    (mkProcs times).get? i =
      if i < times.length then some (Process.init i (times.getD i [])) else none := by
  simp only [mkProcs, List.get?_eq_getElem?, List.getElem?_map]
  by_cases h : i < times.length
  · rw [List.getElem?_range h]
    simp [h]
  · rw [List.getElem?_eq_none (by simpa using h)]
    simp [h]

theorem mkProcs_length (times : List (List Int)) :
    (mkProcs times).length = times.length := by
  simp [mkProcs]

/-- Mode/event discipline of a tick: the callback fired determines the
mode transition, the id never changes, and a process that was not
running stays out of 'burst' mode. -/
theorem simulate_mode {p : Process} {x : Process × Bool × PEvent}
    (h : p.simulate = some x) :
    x.1.id = p.id ∧
    ((x.2.2 = PEvent.noEv ∧ x.1.mode = p.mode) ∨
     (x.2.2 = PEvent.evIo ∧ p.mode = Mode.burst ∧ x.1.mode = Mode.io) ∨
     (x.2.2 = PEvent.evDone ∧ p.mode = Mode.burst ∧ x.1.mode = Mode.done) ∨
     (x.2.2 = PEvent.evReady ∧ p.mode = Mode.io ∧ x.1.mode = Mode.ready)) := by
  cases hm : p.mode
  case done =>
    simp only [Process.simulate, hm, reduceCtorEq, reduceIte] at h
    obtain rfl := Option.some.inj h
    simp [hm]
  case ready =>
    simp only [Process.simulate, hm, reduceCtorEq, reduceIte] at h
    obtain rfl := Option.some.inj h
    simp [hm]
  case burst =>
    simp only [Process.simulate, hm, reduceCtorEq, reduceIte] at h
    split at h
    · exact Option.noConfusion h
    · split at h
      · split at h
        · obtain rfl := Option.some.inj h
          simp [hm]
        · obtain rfl := Option.some.inj h
          simp [hm]
      · obtain rfl := Option.some.inj h
        simp [hm]
  case io =>
    simp only [Process.simulate, hm, reduceCtorEq, reduceIte] at h
    split at h
    · exact Option.noConfusion h
    · split at h
      · obtain rfl := Option.some.inj h
        simp [hm]
      · obtain rfl := Option.some.inj h
        simp [hm]

/-- A successful `scheduleOnCPU` starts from 'ready', lands in 'burst',
and changes neither the id nor any non-metric field. -/
theorem scheduleOnCPU_mode {p q : Process} (h : p.scheduleOnCPU = some q) :
    p.mode = Mode.ready ∧ q.mode = Mode.burst ∧ q.id = p.id := by
  simp only [Process.scheduleOnCPU] at h
  split at h
  · obtain rfl := Option.some.inj h
    rename_i hm
    exact ⟨hm, rfl, rfl⟩
  · exact Option.noConfusion h

/-- A successful `descheduleFromCPU` starts from 'burst', lands in
'ready', and is otherwise the identity. -/
theorem descheduleFromCPU_mode {p q : Process} (h : p.descheduleFromCPU = some q) :
    p.mode = Mode.burst ∧ q = { p with mode := Mode.ready } := by
  simp only [Process.descheduleFromCPU] at h
  split at h
  · obtain rfl := Option.some.inj h
    rename_i hm
    exact ⟨hm, rfl⟩
  · exact Option.noConfusion h

/-- `RRQueue.processIO` leaves the membership sequence unchanged. -/
theorem rr_processIo_queue {procs : List Process} {q q' : RRQueue} {id : Nat}
    (h : RRQueue.processIo procs q id = some q') : q'.queue = q.queue := by
  simp only [RRQueue.processIo] at h
  split at h
  · exact (nextReadyProcess_fields h).1
  · exact Option.noConfusion h

/-- `RRQueue.processDone` removes exactly the entry at the cursor. -/
theorem rr_processDone_queue {procs : List Process} {q q' : RRQueue} {id : Nat}
    (h : RRQueue.processDone procs q id = some q') :
    q'.queue = q.queue.eraseIdx q.idx := by
  simp only [RRQueue.processDone] at h
  split at h
  · have hfields := nextReadyProcess_fields h
    rw [hfields.1]
    split <;> split <;> rfl
  · exact Option.noConfusion h

/-- `RRQueue.makeActive` leaves the membership sequence unchanged. -/
theorem rr_makeActive_queue {procs : List Process} {q : RRQueue} {r : RRQueue × Bool}
    (h : RRQueue.makeActive procs q = some r) : r.1.queue = q.queue := by
  simp only [RRQueue.makeActive] at h
  split at h
  · obtain rfl := Option.some.inj h
    rfl
  · split at h
    · obtain rfl := Option.some.inj h
      rfl
    · split at h
      · exact Option.noConfusion h
      · rename_i q2 hnx
        obtain rfl := Option.some.inj h
        exact (nextReadyProcess_fields hnx).1

/-- Shape of a queue tick: on "quantum not expired" the membership is
unchanged; on expiry the cursor entry is removed and exposed in
`lastRemoved`, and the tick only fires from an active queue. -/
theorem rr_simulate_queue {procs : List Process} {q : RRQueue} {q' : RRQueue} {flag : Bool}
    (h : RRQueue.simulate procs q = some (q', flag)) :
    (flag = true → q'.queue = q.queue) ∧
    (flag = false → q.isActive = true ∧
      ∃ rid, q.queue.get? q.idx = some rid ∧
        q'.queue = q.queue.eraseIdx q.idx ∧ q'.lastRemoved = some rid) := by
  simp only [RRQueue.simulate] at h
  split at h
  · rename_i hact
    obtain h2 := Option.some.inj h
    obtain rfl : q = q' := congrArg Prod.fst h2
    have hflag : flag = true := (congrArg Prod.snd h2).symm
    constructor
    · intro _
      rfl
    · intro hf
      rw [hf] at hflag
      exact Bool.noConfusion hflag
  · rename_i hact
    rw [Bool.not_eq_false] at hact
    split at h
    · split at h
      · exact Option.noConfusion h
      · rename_i rid hg
        split at h
        · exact Option.noConfusion h
        · rename_i q2 hnx
          obtain h2 := Option.some.inj h
          obtain rfl : q2 = q' := congrArg Prod.fst h2
          have hflag : flag = false := (congrArg Prod.snd h2).symm
          subst hflag
          constructor
          · intro hbad
            exact Bool.noConfusion hbad
          · intro _
            refine ⟨hact, rid, hg, ?_, ?_⟩
            · rw [(nextReadyProcess_fields hnx).1]
              split <;> split <;> rfl
            · rw [(nextReadyProcess_fields hnx).2.2.2]
              split <;> split <;> rfl
    · obtain h2 := Option.some.inj h
      obtain rfl : _ = q' := congrArg Prod.fst h2
      have hflag : flag = true := (congrArg Prod.snd h2).symm
      constructor
      · intro _
        rfl
      · intro hf
        rw [hf] at hflag
        exact Bool.noConfusion hflag

/-! ## The FCFS scheduler invariant (claim C5) -/

/-- The FCFS core invariant: ids equal positions, a process is in
'burst' mode exactly when the cpu slot names it, and the cpu slot is in
range. -/
structure FCFSInv (s : FCFSScheduler) : Prop where
  ids : ∀ j p, s.processes.get? j = some p → p.id = j
  oneburst : ∀ j p, s.processes.get? j = some p → (p.mode = Mode.burst ↔ s.cpu = some j)
  cpu_lt : ∀ c, s.cpu = some c → c < s.processes.length

theorem fcfs_stepProc_inv {s s' : FCFSScheduler} {i : Nat}
    (hinv : FCFSInv s) (h : s.stepProc i = some s') :
    FCFSInv s' ∧ s'.processes.length = s.processes.length ∧ s.done ≤ s'.done := by
  simp only [FCFSScheduler.stepProc] at h
  split at h
  · exact Option.noConfusion h
  · rename_i p hp
    split at h
    · exact Option.noConfusion h
    · rename_i p' b ev hx
      have hilt : i < s.processes.length := lt_of_get?_eq_some hp
      have hpid : p.id = i := hinv.ids i p hp
      have hm := simulate_mode hx
      have hpid' : p'.id = i := by
        have h1 : p'.id = p.id := hm.1
        rw [h1, hpid]
      have hget : ∀ j q, (s.processes.set i p').get? j = some q →
          (j = i ∧ q = p') ∨ (j ≠ i ∧ s.processes.get? j = some q) := by
        intro j q hq
        by_cases hji : j = i
        · subst hji
          rw [get?_set_self hilt] at hq
          exact Or.inl ⟨rfl, (Option.some.inj hq).symm⟩
        · rw [get?_set_ne (Ne.symm hji)] at hq
          exact Or.inr ⟨hji, hq⟩
      have hids' : ∀ j q, (s.processes.set i p').get? j = some q → q.id = j := by
        intro j q hq
        rcases hget j q hq with ⟨rfl, rfl⟩ | ⟨-, hq⟩
        · exact hpid'
        · exact hinv.ids j q hq
      rw [hpid'] at h
      rcases hm.2 with ⟨hev, hmm⟩ | ⟨hev, hpm, hmm⟩ | ⟨hev, hpm, hmm⟩ | ⟨hev, hpm, hmm⟩
      · -- no event
        have hev' : ev = PEvent.noEv := hev
        have hmm' : p'.mode = p.mode := hmm
        subst hev'
        have h' : some { s with processes := s.processes.set i p' } = some s' := h
        obtain rfl := Option.some.inj h'
        refine ⟨⟨hids', ?_, ?_⟩, by simp, le_refl _⟩
        · intro j q hq
          rcases hget j q hq with ⟨rfl, rfl⟩ | ⟨-, hq⟩
          · rw [hmm']
            exact hinv.oneburst _ p hp
          · exact hinv.oneburst j q hq
        · intro c hc
          simpa using hinv.cpu_lt c hc
      · -- processIO
        have hev' : ev = PEvent.evIo := hev
        have hmm' : p'.mode = Mode.io := hmm
        subst hev'
        have h' : FCFSScheduler.processIo { s with processes := s.processes.set i p' } i =
            some s' := h
        simp only [FCFSScheduler.processIo] at h'
        split at h'
        · rename_i hcpu
          obtain rfl := Option.some.inj h'
          refine ⟨⟨hids', ?_, ?_⟩, by simp, le_refl _⟩
          · intro j q hq
            constructor
            · intro hqb
              exfalso
              rcases hget j q hq with ⟨rfl, rfl⟩ | ⟨hji, hq⟩
              · rw [hmm'] at hqb
                exact Mode.noConfusion hqb
              · have h2 := (hinv.oneburst j q hq).mp hqb
                have hcpu' : s.cpu = some i := hcpu
                rw [hcpu'] at h2
                exact hji (Option.some.inj h2).symm
            · intro hbad
              exact Option.noConfusion hbad
          · intro c hc
            exact Option.noConfusion hc
        · exact Option.noConfusion h'
      · -- processDone
        have hev' : ev = PEvent.evDone := hev
        have hmm' : p'.mode = Mode.done := hmm
        subst hev'
        have h' : FCFSScheduler.processDone { s with processes := s.processes.set i p' } i =
            some s' := h
        simp only [FCFSScheduler.processDone] at h'
        split at h'
        · rename_i hcpu
          obtain rfl := Option.some.inj h'
          refine ⟨⟨hids', ?_, ?_⟩, by simp, Nat.le_succ _⟩
          · intro j q hq
            constructor
            · intro hqb
              exfalso
              rcases hget j q hq with ⟨rfl, rfl⟩ | ⟨hji, hq⟩
              · rw [hmm'] at hqb
                exact Mode.noConfusion hqb
              · have h2 := (hinv.oneburst j q hq).mp hqb
                have hcpu' : s.cpu = some i := hcpu
                rw [hcpu'] at h2
                exact hji (Option.some.inj h2).symm
            · intro hbad
              exact Option.noConfusion hbad
          · intro c hc
            exact Option.noConfusion hc
        · exact Option.noConfusion h'
      · -- processReady
        have hev' : ev = PEvent.evReady := hev
        have hmm' : p'.mode = Mode.ready := hmm
        have hpm' : p.mode = Mode.io := hpm
        subst hev'
        have h' : some (FCFSScheduler.processReady
            { s with processes := s.processes.set i p' } i) = some s' := h
        obtain rfl := Option.some.inj h'
        refine ⟨⟨hids', ?_, ?_⟩, by simp [FCFSScheduler.processReady], le_refl _⟩
        · intro j q hq
          rcases hget j q hq with ⟨rfl, rfl⟩ | ⟨-, hq⟩
          · constructor
            · intro hqb
              rw [hmm'] at hqb
              exact absurd hqb (by simp)
            · intro hc
              exfalso
              have h2 := (hinv.oneburst _ p hp).mpr hc
              rw [hpm'] at h2
              exact Mode.noConfusion h2
          · exact hinv.oneburst j q hq
        · intro c hc
          have h3 := hinv.cpu_lt c hc
          simpa [FCFSScheduler.processReady] using h3

/-- The per-tick process loop preserves the FCFS invariant. -/
theorem fcfs_advanceLoop_inv :
    ∀ (l : List Nat) (s s' : FCFSScheduler), FCFSInv s → s.advanceLoop l = some s' →
      FCFSInv s'
  | [], s, s', hinv, h => by
    simp only [FCFSScheduler.advanceLoop] at h
    obtain rfl := Option.some.inj h
    exact hinv
  | i :: rest, s, s', hinv, h => by
    simp only [FCFSScheduler.advanceLoop] at h
    split at h
    · exact Option.noConfusion h
    · rename_i s1 hstep
      exact fcfs_advanceLoop_inv rest s1 s' (fcfs_stepProc_inv hinv hstep).1 h

/-- One FCFS tick preserves the invariant. -/
theorem fcfs_simulate_inv {s s' : FCFSScheduler} {b : Bool}
    (hinv : FCFSInv s) (h : s.simulate = some (s', b)) : FCFSInv s' := by
  simp only [FCFSScheduler.simulate] at h
  split at h
  · obtain h2 := Option.some.inj h
    obtain rfl : s = s' := congrArg Prod.fst h2
    exact hinv
  · split at h
    · exact Option.noConfusion h
    · rename_i s1 hsched
      have hinv1 : FCFSInv s1 := by
        rcases hcpu : s.cpu with _ | c
        · rcases hqueue : s.queue with _ | ⟨id, rest⟩
          · simp only [hcpu, hqueue] at hsched
            obtain rfl := Option.some.inj hsched
            exact hinv
          · simp only [hcpu, hqueue] at hsched
            split at hsched
            · exact Option.noConfusion hsched
            · rename_i p hp
              split at hsched
              · exact Option.noConfusion hsched
              · rename_i p' hsch
                obtain rfl := Option.some.inj hsched
                have hid : p.id = id := hinv.ids id p hp
                have hidlt : id < s.processes.length := lt_of_get?_eq_some hp
                obtain ⟨hpready, hp'burst, hp'id⟩ := scheduleOnCPU_mode hsch
                refine ⟨?_, ?_, ?_⟩
                · intro j q hq
                  by_cases hji : j = id
                  · subst hji
                    rw [get?_set_self hidlt] at hq
                    obtain rfl := Option.some.inj hq
                    rw [hp'id, hid]
                  · rw [get?_set_ne (Ne.symm hji)] at hq
                    exact hinv.ids j q hq
                · intro j q hq
                  by_cases hji : j = id
                  · subst hji
                    rw [get?_set_self hidlt] at hq
                    obtain rfl := Option.some.inj hq
                    simp [hp'burst]
                  · rw [get?_set_ne (Ne.symm hji)] at hq
                    constructor
                    · intro hqb
                      exfalso
                      have h2 := (hinv.oneburst j q hq).mp hqb
                      rw [hcpu] at h2
                      exact Option.noConfusion h2
                    · intro hc
                      exfalso
                      exact hji (Option.some.inj hc).symm
                · intro c0 hc
                  obtain rfl := Option.some.inj hc
                  simpa using hidlt
        · simp only [hcpu] at hsched
          obtain rfl := Option.some.inj hsched
          exact hinv
      have hpe : ∀ s2 : FCFSScheduler, s2.processes = s1.processes → s2.cpu = s1.cpu →
          (match s2.advanceAll with
            | none => none
            | some s3 => some (s3, decide (s3.done = s3.n))) = some (s', b) →
          FCFSInv s' := by
        intro s2 hpp hcc h2
        split at h2
        · exact Option.noConfusion h2
        · rename_i s3 hadv
          obtain hx := Option.some.inj h2
          obtain rfl : s3 = s' := congrArg Prod.fst hx
          refine fcfs_advanceLoop_inv _ s2 _ ⟨?_, ?_, ?_⟩ hadv
          · rw [hpp]
            exact hinv1.ids
          · intro j q hq
            rw [hpp] at hq
            rw [hcc]
            exact hinv1.oneburst j q hq
          · intro c hc
            rw [hcc] at hc
            rw [hpp]
            exact hinv1.cpu_lt c hc
      exact hpe _ (by dsimp only; split <;> rfl) (by dsimp only; split <;> rfl) h

/-- The fresh FCFS construction establishes the invariant. -/
theorem fcfs_init_inv {times : List (List Int)} {s : FCFSScheduler}
    (h : FCFSScheduler.init times = some s) : FCFSInv s := by
  simp only [FCFSScheduler.init] at h
  split at h
  · exact Option.noConfusion h
  · rename_i p0 hp0
    split at h
    · exact Option.noConfusion h
    · rename_i p0' hsch
      obtain rfl := Option.some.inj h
      have h0lt : (0 : Nat) < (mkProcs times).length := lt_of_get?_eq_some hp0
      have hp0id : p0.id = 0 := by
        rw [mkProcs_get?] at hp0
        rw [mkProcs_length] at h0lt
        rw [if_pos h0lt] at hp0
        obtain rfl := Option.some.inj hp0
        rfl
      obtain ⟨hready, hburst, hid⟩ := scheduleOnCPU_mode hsch
      refine ⟨?_, ?_, ?_⟩
      · intro j q hq
        by_cases hj0 : j = 0
        · subst hj0
          rw [get?_set_self h0lt] at hq
          obtain rfl := Option.some.inj hq
          rw [hid, hp0id]
        · rw [get?_set_ne (Ne.symm hj0)] at hq
          rw [mkProcs_get?] at hq
          split at hq
          · obtain rfl := Option.some.inj hq
            rfl
          · exact Option.noConfusion hq
      · intro j q hq
        by_cases hj0 : j = 0
        · subst hj0
          rw [get?_set_self h0lt] at hq
          obtain rfl := Option.some.inj hq
          simp [hburst, hp0id]
        · rw [get?_set_ne (Ne.symm hj0)] at hq
          rw [mkProcs_get?] at hq
          split at hq
          · obtain rfl := Option.some.inj hq
            constructor
            · intro hbad
              exact absurd hbad (by simp [Process.init])
            · intro hc
              exfalso
              rw [hp0id] at hc
              exact hj0 (Option.some.inj hc).symm
          · exact Option.noConfusion hq
      · intro c hc
        rw [hp0id] at hc
        obtain rfl := Option.some.inj hc
        simpa using h0lt

/-- FCFS scheduler states reachable from a fresh construction over a
given workload table. -/
inductive FCFSReach (times : List (List Int)) : FCFSScheduler → Prop where
  | init {s} : FCFSScheduler.init times = some s → FCFSReach times s
  | step {s s' b} : FCFSReach times s → s.simulate = some (s', b) → FCFSReach times s'

theorem fcfsReach_inv {times : List (List Int)} {s : FCFSScheduler}
    (h : FCFSReach times s) : FCFSInv s := by
  induction h with
  | init h0 => exact fcfs_init_inv h0
  | step _ hstep ih => exact fcfs_simulate_inv ih hstep

/-! ## The MLFQ scheduler invariant (claims C5 and C6) -/

/-- The MLFQ core invariant: ids equal positions; a process is in
'burst' mode exactly when the cpu slot names it; the cpu slot is in
range; level-0 members have priority 0 and level-1 members priority 1;
the round-robin membership sequences have no duplicates; every priority
is at most 2. -/
structure MLFQInv (s : MLFQScheduler) : Prop where
  ids : ∀ j p, s.processes.get? j = some p → p.id = j
  oneburst : ∀ j p, s.processes.get? j = some p → (p.mode = Mode.burst ↔ s.cpu = some j)
  cpu_lt : ∀ c, s.cpu = some c → c < s.processes.length
  mem0 : ∀ id ∈ s.rr0.queue, s.priorities.get? id = some 0
  mem1 : ∀ id ∈ s.rr1.queue, s.priorities.get? id = some 1
  nodup0 : s.rr0.queue.Nodup
  nodup1 : s.rr1.queue.Nodup
  prle : ∀ pr ∈ s.priorities, pr ≤ 2

/-- The invariant only depends on the scheduler components it mentions. -/
theorem mlfq_inv_congr (t s : MLFQScheduler)
    (hp : t.processes = s.processes) (hc : t.cpu = s.cpu)
    (h0 : t.rr0.queue = s.rr0.queue) (h1 : t.rr1.queue = s.rr1.queue)
    (hpr : t.priorities = s.priorities) (hinv : MLFQInv s) : MLFQInv t := by
  refine ⟨?_, ?_, ?_, ?_, ?_, ?_, ?_, ?_⟩
  · rw [hp]
    exact hinv.ids
  · intro j p hq
    rw [hp] at hq
    rw [hc]
    exact hinv.oneburst j p hq
  · intro c hcc
    rw [hc] at hcc
    rw [hp]
    exact hinv.cpu_lt c hcc
  · rw [h0, hpr]
    exact hinv.mem0
  · rw [h1, hpr]
    exact hinv.mem1
  · rw [h0]
    exact hinv.nodup0
  · rw [h1]
    exact hinv.nodup1
  · rw [hpr]
    exact hinv.prle

/-- In a duplicate-free list, the entry at a position does not survive
the removal of that position. -/
theorem not_mem_eraseIdx_self {α : Type} :
    ∀ (l : List α) (i : Nat) (a : α), l.Nodup → l.get? i = some a →
      a ∉ l.eraseIdx i
  | [], i, a, _, h => by
    simp [List.get?] at h
  | b :: t, 0, a, hnd, h => by
    obtain rfl : b = a := Option.some.inj h
    simpa using (List.nodup_cons.mp hnd).1
  | b :: t, i + 1, a, hnd, h => by
    have ht : t.get? i = some a := h
    have hmem : a ∈ t := mem_of_get?_eq_some ht
    intro hin
    simp only [List.eraseIdx_cons_succ, List.mem_cons] at hin
    rcases hin with rfl | hin
    · exact (List.nodup_cons.mp hnd).1 hmem
    · exact not_mem_eraseIdx_self t i a (List.nodup_cons.mp hnd).2 ht hin

theorem mlfq_tryLevel0_inv {s s' : MLFQScheduler}
    (hinv : MLFQInv s) (h : s.tryLevel0 = some s') :
    MLFQInv s' ∧ s'.priorities = s.priorities ∧ s'.done = s.done ∧
    s'.processes.length = s.processes.length := by
  have hsched : ∀ (t : MLFQScheduler) (r : Nat) (p p' : Process),
      MLFQInv { t with cpu := none } →
      t.processes.get? r = some p → p.scheduleOnCPU = some p' →
      MLFQInv { t with cpu := some r, processes := t.processes.set r p' } := by
    intro t r p p' hit hp hsch
    have hrlt : r < t.processes.length := lt_of_get?_eq_some hp
    obtain ⟨hpready, hp'burst, hp'id⟩ := scheduleOnCPU_mode hsch
    refine ⟨?_, ?_, ?_, hit.mem0, hit.mem1, hit.nodup0, hit.nodup1, hit.prle⟩
    · intro j q hq
      dsimp only at hq
      by_cases hjr : j = r
      · subst hjr
        rw [get?_set_self hrlt] at hq
        obtain rfl := Option.some.inj hq
        rw [hp'id]
        exact hit.ids j p hp
      · rw [get?_set_ne (Ne.symm hjr)] at hq
        exact hit.ids j q hq
    · intro j q hq
      dsimp only at hq ⊢
      by_cases hjr : j = r
      · subst hjr
        rw [get?_set_self hrlt] at hq
        obtain rfl := Option.some.inj hq
        simp [hp'burst]
      · rw [get?_set_ne (Ne.symm hjr)] at hq
        constructor
        · intro hqb
          exfalso
          have h2 := (hit.oneburst j q hq).mp hqb
          exact Option.noConfusion h2
        · intro hc
          exfalso
          exact hjr (Option.some.inj hc).symm
    · intro c hc
      dsimp only at hc ⊢
      obtain rfl := Option.some.inj hc
      simpa using hrlt
  simp only [MLFQScheduler.tryLevel0] at h
  rcases hcpu : s.cpu with _ | c
  · simp only [hcpu] at h
    split at h
    · exact Option.noConfusion h
    · rename_i ma q0 ok hma
      have hq0 : q0.queue = s.rr0.queue := rr_makeActive_queue hma
      split at h
      · -- queue 0 activated, nothing to preempt
        split at h
        · exact Option.noConfusion h
        · rename_i r hrun
          split at h
          · exact Option.noConfusion h
          · rename_i p hp
            split at h
            · exact Option.noConfusion h
            · rename_i p' hsch
              obtain rfl := Option.some.inj h
              have hbase : MLFQInv { s with rr0 := q0, cpu := none } := by
                refine ⟨hinv.ids, ?_, ?_, ?_, hinv.mem1, ?_, hinv.nodup1, hinv.prle⟩
                · intro j q hq
                  dsimp only at hq ⊢
                  constructor
                  · intro hqb
                    have h2 := (hinv.oneburst j q hq).mp hqb
                    rw [hcpu] at h2
                    exact Option.noConfusion h2
                  · intro hbad
                    exact Option.noConfusion hbad
                · intro c0 hc
                  exact Option.noConfusion hc
                · intro id hid
                  dsimp only at hid
                  rw [hq0] at hid
                  exact hinv.mem0 id hid
                · dsimp only
                  rw [hq0]
                  exact hinv.nodup0
              refine ⟨hsched { s with rr0 := q0 } r p p' hbase hp hsch, rfl, rfl, by simp⟩
      · obtain rfl := Option.some.inj h
        refine ⟨?_, rfl, rfl, rfl⟩
        exact mlfq_inv_congr _ s rfl hcpu.symm hq0 rfl rfl hinv
  · simp only [hcpu] at h
    rcases hpr : s.priorities.get? c with _ | pr
    · simp only [hpr] at h
      exact Option.noConfusion h
    · by_cases hpr0 : 0 < pr
      · have hd : decide (0 < pr) = true := by simpa using hpr0
        simp only [hpr, hd] at h
        split at h
        · exact Option.noConfusion h
        · rename_i ma q0 ok hma
          have hq0 : q0.queue = s.rr0.queue := rr_makeActive_queue hma
          split at h
          · -- queue 0 activated: preempt the running process
            split at h
            · exact Option.noConfusion h
            · rename_i s6 hpre
              split at hpre
              · exact Option.noConfusion hpre
              · rename_i p hp
                split at hpre
                · exact Option.noConfusion hpre
                · rename_i pc' hdesch
                  obtain ⟨hpburst, rfl⟩ := descheduleFromCPU_mode hdesch
                  have hclt : c < s.processes.length := lt_of_get?_eq_some hp
                  have hnoburst : ∀ (fc : List Nat) (rr1' : RRQueue),
                      rr1'.queue = s.rr1.queue →
                      MLFQInv { s with
                                 rr0 := q0, rr1 := rr1',
                                 processes := s.processes.set c { p with mode := Mode.ready },
                                 fcfs_queue := fc, cpu := none } := by
                    intro fc rr1' h1q
                    refine ⟨?_, ?_, ?_, ?_, ?_, ?_, ?_, hinv.prle⟩
                    · intro j q hq
                      dsimp only at hq
                      by_cases hjc : j = c
                      · subst hjc
                        rw [get?_set_self hclt] at hq
                        obtain rfl := Option.some.inj hq
                        exact hinv.ids j p hp
                      · rw [get?_set_ne (Ne.symm hjc)] at hq
                        exact hinv.ids j q hq
                    · intro j q hq
                      dsimp only at hq ⊢
                      constructor
                      · intro hqb
                        exfalso
                        by_cases hjc : j = c
                        · subst hjc
                          rw [get?_set_self hclt] at hq
                          obtain rfl := Option.some.inj hq
                          exact Mode.noConfusion hqb
                        · rw [get?_set_ne (Ne.symm hjc)] at hq
                          have h2 := (hinv.oneburst j q hq).mp hqb
                          rw [hcpu] at h2
                          exact hjc (Option.some.inj h2).symm
                      · intro hbad
                        exact Option.noConfusion hbad
                    · intro c0 hc
                      exact Option.noConfusion hc
                    · intro id hid
                      dsimp only at hid
                      rw [hq0] at hid
                      exact hinv.mem0 id hid
                    · intro id hid
                      dsimp only at hid
                      rw [h1q] at hid
                      exact hinv.mem1 id hid
                    · dsimp only
                      rw [hq0]
                      exact hinv.nodup0
                    · dsimp only
                      rw [h1q]
                      exact hinv.nodup1
                  split at hpre
                  · -- the preempted process had priority 1: deactivate queue 1
                    obtain rfl := Option.some.inj hpre
                    split at h
                    · exact Option.noConfusion h
                    · rename_i r hrun
                      split at h
                      · exact Option.noConfusion h
                      · rename_i p2 hp2
                        split at h
                        · exact Option.noConfusion h
                        · rename_i p2' hsch2
                          obtain rfl := Option.some.inj h
                          have hb := hnoburst s.fcfs_queue s.rr1.makeInactive rfl
                          refine ⟨hsched _ r p2 p2' hb hp2 hsch2, rfl, rfl, by simp⟩
                  · -- the preempted process was level 2: push it on the FIFO queue
                    obtain rfl := Option.some.inj hpre
                    split at h
                    · exact Option.noConfusion h
                    · rename_i r hrun
                      split at h
                      · exact Option.noConfusion h
                      · rename_i p2 hp2
                        split at h
                        · exact Option.noConfusion h
                        · rename_i p2' hsch2
                          obtain rfl := Option.some.inj h
                          have hb := hnoburst (s.fcfs_queue ++ [c]) s.rr1 rfl
                          refine ⟨hsched _ r p2 p2' hb hp2 hsch2, rfl, rfl, by simp⟩
          · obtain rfl := Option.some.inj h
            refine ⟨?_, rfl, rfl, rfl⟩
            exact mlfq_inv_congr _ s rfl hcpu.symm hq0 rfl rfl hinv
      · have hd : decide (0 < pr) = false := by simpa using hpr0
        simp only [hpr, hd] at h
        obtain rfl := Option.some.inj h
        exact ⟨hinv, rfl, rfl, rfl⟩

theorem mlfq_tryLevel1_inv {s s' : MLFQScheduler}
    (hinv : MLFQInv s) (h : s.tryLevel1 = some s') :
    MLFQInv s' ∧ s'.priorities = s.priorities ∧ s'.done = s.done ∧
    s'.processes.length = s.processes.length := by
  have hsched : ∀ (t : MLFQScheduler) (r : Nat) (p p' : Process),
      MLFQInv { t with cpu := none } →
      t.processes.get? r = some p → p.scheduleOnCPU = some p' →
      MLFQInv { t with cpu := some r, processes := t.processes.set r p' } := by
    intro t r p p' hit hp hsch
    have hrlt : r < t.processes.length := lt_of_get?_eq_some hp
    obtain ⟨hpready, hp'burst, hp'id⟩ := scheduleOnCPU_mode hsch
    refine ⟨?_, ?_, ?_, hit.mem0, hit.mem1, hit.nodup0, hit.nodup1, hit.prle⟩
    · intro j q hq
      dsimp only at hq
      by_cases hjr : j = r
      · subst hjr
        rw [get?_set_self hrlt] at hq
        obtain rfl := Option.some.inj hq
        rw [hp'id]
        exact hit.ids j p hp
      · rw [get?_set_ne (Ne.symm hjr)] at hq
        exact hit.ids j q hq
    · intro j q hq
      dsimp only at hq ⊢
      by_cases hjr : j = r
      · subst hjr
        rw [get?_set_self hrlt] at hq
        obtain rfl := Option.some.inj hq
        simp [hp'burst]
      · rw [get?_set_ne (Ne.symm hjr)] at hq
        constructor
        · intro hqb
          exfalso
          have h2 := (hit.oneburst j q hq).mp hqb
          exact Option.noConfusion h2
        · intro hc
          exfalso
          exact hjr (Option.some.inj hc).symm
    · intro c hc
      dsimp only at hc ⊢
      obtain rfl := Option.some.inj hc
      simpa using hrlt
  simp only [MLFQScheduler.tryLevel1] at h
  rcases hcpu : s.cpu with _ | c
  · simp only [hcpu] at h
    split at h
    · exact Option.noConfusion h
    · rename_i ma q1 ok hma
      have hq1 : q1.queue = s.rr1.queue := rr_makeActive_queue hma
      split at h
      · split at h
        · exact Option.noConfusion h
        · rename_i r hrun
          split at h
          · exact Option.noConfusion h
          · rename_i p hp
            split at h
            · exact Option.noConfusion h
            · rename_i p' hsch
              obtain rfl := Option.some.inj h
              have hbase : MLFQInv { s with rr1 := q1, cpu := none } := by
                refine ⟨hinv.ids, ?_, ?_, hinv.mem0, ?_, hinv.nodup0, ?_, hinv.prle⟩
                · intro j q hq
                  dsimp only at hq ⊢
                  constructor
                  · intro hqb
                    have h2 := (hinv.oneburst j q hq).mp hqb
                    rw [hcpu] at h2
                    exact Option.noConfusion h2
                  · intro hbad
                    exact Option.noConfusion hbad
                · intro c0 hc
                  exact Option.noConfusion hc
                · intro id hid
                  dsimp only at hid
                  rw [hq1] at hid
                  exact hinv.mem1 id hid
                · dsimp only
                  rw [hq1]
                  exact hinv.nodup1
              refine ⟨hsched { s with rr1 := q1 } r p p' hbase hp hsch, rfl, rfl, by simp⟩
      · obtain rfl := Option.some.inj h
        refine ⟨?_, rfl, rfl, rfl⟩
        exact mlfq_inv_congr _ s rfl hcpu.symm rfl hq1 rfl hinv
  · simp only [hcpu] at h
    rcases hpr : s.priorities.get? c with _ | pr
    · simp only [hpr] at h
      exact Option.noConfusion h
    · by_cases hpr1 : 1 < pr
      · have hd : decide (1 < pr) = true := by simpa using hpr1
        simp only [hpr, hd] at h
        split at h
        · exact Option.noConfusion h
        · rename_i ma q1 ok hma
          have hq1 : q1.queue = s.rr1.queue := rr_makeActive_queue hma
          split at h
          · split at h
            · exact Option.noConfusion h
            · rename_i s6 hpre
              split at hpre
              · exact Option.noConfusion hpre
              · rename_i p hp
                split at hpre
                · exact Option.noConfusion hpre
                · rename_i pc' hdesch
                  obtain ⟨hpburst, rfl⟩ := descheduleFromCPU_mode hdesch
                  have hclt : c < s.processes.length := lt_of_get?_eq_some hp
                  obtain rfl := Option.some.inj hpre
                  have hb : MLFQInv { s with
                      rr1 := q1,
                      processes := s.processes.set c { p with mode := Mode.ready },
                      fcfs_queue := s.fcfs_queue ++ [c], cpu := none } := by
                    refine ⟨?_, ?_, ?_, ?_, ?_, hinv.nodup0, ?_, hinv.prle⟩
                    · intro j q hq
                      dsimp only at hq
                      by_cases hjc : j = c
                      · subst hjc
                        rw [get?_set_self hclt] at hq
                        obtain rfl := Option.some.inj hq
                        exact hinv.ids j p hp
                      · rw [get?_set_ne (Ne.symm hjc)] at hq
                        exact hinv.ids j q hq
                    · intro j q hq
                      dsimp only at hq ⊢
                      constructor
                      · intro hqb
                        exfalso
                        by_cases hjc : j = c
                        · subst hjc
                          rw [get?_set_self hclt] at hq
                          obtain rfl := Option.some.inj hq
                          exact Mode.noConfusion hqb
                        · rw [get?_set_ne (Ne.symm hjc)] at hq
                          have h2 := (hinv.oneburst j q hq).mp hqb
                          rw [hcpu] at h2
                          exact hjc (Option.some.inj h2).symm
                      · intro hbad
                        exact Option.noConfusion hbad
                    · intro c0 hc
                      exact Option.noConfusion hc
                    · exact hinv.mem0
                    · intro id hid
                      dsimp only at hid
                      rw [hq1] at hid
                      exact hinv.mem1 id hid
                    · dsimp only
                      rw [hq1]
                      exact hinv.nodup1
                  split at h
                  · exact Option.noConfusion h
                  · rename_i r hrun
                    split at h
                    · exact Option.noConfusion h
                    · rename_i p2 hp2
                      split at h
                      · exact Option.noConfusion h
                      · rename_i p2' hsch2
                        obtain rfl := Option.some.inj h
                        refine ⟨hsched _ r p2 p2' hb hp2 hsch2, rfl, rfl, by simp⟩
          · obtain rfl := Option.some.inj h
            refine ⟨?_, rfl, rfl, rfl⟩
            exact mlfq_inv_congr _ s rfl hcpu.symm rfl hq1 rfl hinv
      · have hd : decide (1 < pr) = false := by simpa using hpr1
        simp only [hpr, hd] at h
        obtain rfl := Option.some.inj h
        exact ⟨hinv, rfl, rfl, rfl⟩

theorem mlfq_tryFifo_inv {s s' : MLFQScheduler}
    (hinv : MLFQInv s) (h : s.tryFifo = some s') :
    MLFQInv s' ∧ s'.priorities = s.priorities ∧ s'.done = s.done ∧
    s'.processes.length = s.processes.length := by
  simp only [MLFQScheduler.tryFifo] at h
  rcases hcpu : s.cpu with _ | c
  · simp only [hcpu] at h
    rcases hfq : s.fcfs_queue with _ | ⟨id, rest⟩
    · simp only [hfq] at h
      obtain rfl := Option.some.inj h
      exact ⟨hinv, rfl, rfl, rfl⟩
    · simp only [hfq] at h
      split at h
      · exact Option.noConfusion h
      · rename_i p hp
        split at h
        · exact Option.noConfusion h
        · rename_i p' hsch
          obtain rfl := Option.some.inj h
          have hidlt : id < s.processes.length := lt_of_get?_eq_some hp
          obtain ⟨hpready, hp'burst, hp'id⟩ := scheduleOnCPU_mode hsch
          refine ⟨⟨?_, ?_, ?_, hinv.mem0, hinv.mem1, hinv.nodup0, hinv.nodup1, hinv.prle⟩,
            rfl, rfl, by simp⟩
          · intro j q hq
            dsimp only at hq
            by_cases hji : j = id
            · subst hji
              rw [get?_set_self hidlt] at hq
              obtain rfl := Option.some.inj hq
              rw [hp'id]
              exact hinv.ids j p hp
            · rw [get?_set_ne (Ne.symm hji)] at hq
              exact hinv.ids j q hq
          · intro j q hq
            dsimp only at hq ⊢
            by_cases hji : j = id
            · subst hji
              rw [get?_set_self hidlt] at hq
              obtain rfl := Option.some.inj hq
              simp [hp'burst]
            · rw [get?_set_ne (Ne.symm hji)] at hq
              constructor
              · intro hqb
                exfalso
                have h2 := (hinv.oneburst j q hq).mp hqb
                rw [hcpu] at h2
                exact Option.noConfusion h2
              · intro hc
                exfalso
                exact hji (Option.some.inj hc).symm
          · intro c0 hc
            dsimp only at hc ⊢
            obtain rfl := Option.some.inj hc
            simpa using hidlt
  · simp only [hcpu] at h
    obtain rfl := Option.some.inj h
    exact ⟨hinv, rfl, rfl, rfl⟩

/-- The whole scheduling decision preserves the invariant, the priority
table, the done counter and the process-list length. -/
theorem mlfq_decision_inv {s s' : MLFQScheduler}
    (hinv : MLFQInv s) (h : s.decision = some s') :
    MLFQInv s' ∧ s'.priorities = s.priorities ∧ s'.done = s.done ∧
    s'.processes.length = s.processes.length := by
  rw [MLFQScheduler.decision] at h
  obtain ⟨s1, h0, h⟩ := Option.bind_eq_some.mp h
  obtain ⟨s2, h1, h2⟩ := Option.bind_eq_some.mp h
  obtain ⟨hi1, hp1, hd1, hl1⟩ := mlfq_tryLevel0_inv hinv h0
  obtain ⟨hi2, hp2, hd2, hl2⟩ := mlfq_tryLevel1_inv hi1 h1
  obtain ⟨hi3, hp3, hd3, hl3⟩ := mlfq_tryFifo_inv hi2 h2
  refine ⟨hi3, ?_, ?_, ?_⟩
  · rw [hp3, hp2, hp1]
  · rw [hd3, hd2, hd1]
  · rw [hl3, hl2, hl1]

theorem mlfq_stepProc_inv {s s' : MLFQScheduler} {i : Nat}
    (hinv : MLFQInv s) (h : s.stepProc i = some s') :
    MLFQInv s' ∧ s'.priorities = s.priorities ∧
    s'.processes.length = s.processes.length := by
  simp only [MLFQScheduler.stepProc] at h
  split at h
  · exact Option.noConfusion h
  · rename_i p hp
    split at h
    · exact Option.noConfusion h
    · rename_i p' b ev hx
      have hilt : i < s.processes.length := lt_of_get?_eq_some hp
      have hpid : p.id = i := hinv.ids i p hp
      have hm := simulate_mode hx
      have hpid' : p'.id = i := by
        have h1 : p'.id = p.id := hm.1
        rw [h1, hpid]
      have hget : ∀ j q, (s.processes.set i p').get? j = some q →
          (j = i ∧ q = p') ∨ (j ≠ i ∧ s.processes.get? j = some q) := by
        intro j q hq
        by_cases hji : j = i
        · subst hji
          rw [get?_set_self hilt] at hq
          exact Or.inl ⟨rfl, (Option.some.inj hq).symm⟩
        · rw [get?_set_ne (Ne.symm hji)] at hq
          exact Or.inr ⟨hji, hq⟩
      have hids' : ∀ j q, (s.processes.set i p').get? j = some q → q.id = j := by
        intro j q hq
        rcases hget j q hq with ⟨rfl, rfl⟩ | ⟨-, hq⟩
        · exact hpid'
        · exact hinv.ids j q hq
      have hnob : ∀ j q, p'.mode ≠ Mode.burst → s.cpu = some i →
          (s.processes.set i p').get? j = some q → q.mode ≠ Mode.burst := by
        intro j q hnb hcpu hq
        rcases hget j q hq with ⟨rfl, rfl⟩ | ⟨hji, hq⟩
        · exact hnb
        · intro hqb
          have h2 := (hinv.oneburst j q hq).mp hqb
          rw [hcpu] at h2
          exact hji (Option.some.inj h2).symm
      rw [hpid'] at h
      rcases hm.2 with ⟨hev, hmm⟩ | ⟨hev, hpm, hmm⟩ | ⟨hev, hpm, hmm⟩ | ⟨hev, hpm, hmm⟩
      · -- no event
        have hev' : ev = PEvent.noEv := hev
        have hmm' : p'.mode = p.mode := hmm
        subst hev'
        have h' : some { s with processes := s.processes.set i p' } = some s' := h
        obtain rfl := Option.some.inj h'
        refine ⟨⟨hids', ?_, ?_, hinv.mem0, hinv.mem1, hinv.nodup0, hinv.nodup1, hinv.prle⟩,
          rfl, by simp⟩
        · intro j q hq
          rcases hget j q hq with ⟨rfl, rfl⟩ | ⟨-, hq⟩
          · rw [hmm']
            exact hinv.oneburst _ p hp
          · exact hinv.oneburst j q hq
        · intro c hc
          simpa using hinv.cpu_lt c hc
      · -- processIO
        have hev' : ev = PEvent.evIo := hev
        have hmm' : p'.mode = Mode.io := hmm
        subst hev'
        have h' : MLFQScheduler.processIo { s with processes := s.processes.set i p' } i =
            some s' := h
        simp only [MLFQScheduler.processIo] at h'
        split at h'
        · rename_i hcpu
          have hcpu' : s.cpu = some i := hcpu
          have hcommon : ∀ (rr0' rr1' : RRQueue), rr0'.queue = s.rr0.queue →
              rr1'.queue = s.rr1.queue →
              MLFQInv { s with
                         processes := s.processes.set i p',
                         cpu := none, rr0 := rr0', rr1 := rr1' } := by
            intro rr0' rr1' h0q h1q
            refine ⟨hids', ?_, ?_, ?_, ?_, ?_, ?_, hinv.prle⟩
            · intro j q hq
              dsimp only at hq ⊢
              constructor
              · intro hqb
                exact absurd hqb
                  (hnob j q (by rw [hmm']; exact fun hbad => Mode.noConfusion hbad) hcpu' hq)
              · intro hbad
                exact Option.noConfusion hbad
            · intro c0 hc
              exact Option.noConfusion hc
            · intro id hid
              dsimp only at hid
              rw [h0q] at hid
              exact hinv.mem0 id hid
            · intro id hid
              dsimp only at hid
              rw [h1q] at hid
              exact hinv.mem1 id hid
            · dsimp only
              rw [h0q]
              exact hinv.nodup0
            · dsimp only
              rw [h1q]
              exact hinv.nodup1
          split at h'
          · exact Option.noConfusion h'
          · rename_i pr hpri
            have hpri' : s.priorities.get? i = some pr := hpri
            split at h'
            · split at h'
              · exact Option.noConfusion h'
              · rename_i q0' hq0
                obtain rfl := Option.some.inj h'
                exact ⟨hcommon q0' s.rr1 (rr_processIo_queue hq0) rfl, rfl, by simp⟩
            · split at h'
              · split at h'
                · exact Option.noConfusion h'
                · rename_i q1' hq1
                  obtain rfl := Option.some.inj h'
                  exact ⟨hcommon s.rr0 q1' rfl (rr_processIo_queue hq1), rfl, by simp⟩
              · obtain rfl := Option.some.inj h'
                exact ⟨hcommon s.rr0 s.rr1 rfl rfl, rfl, by simp⟩
        · exact Option.noConfusion h'
      · -- processDone
        have hev' : ev = PEvent.evDone := hev
        have hmm' : p'.mode = Mode.done := hmm
        subst hev'
        have h' : MLFQScheduler.processDone { s with processes := s.processes.set i p' } i =
            some s' := h
        simp only [MLFQScheduler.processDone] at h'
        split at h'
        · rename_i hcpu
          have hcpu' : s.cpu = some i := hcpu
          have hcommon : ∀ (rr0' rr1' : RRQueue),
              (∀ id ∈ rr0'.queue, id ∈ s.rr0.queue) → rr0'.queue.Nodup →
              (∀ id ∈ rr1'.queue, id ∈ s.rr1.queue) → rr1'.queue.Nodup →
              MLFQInv { s with
                         processes := s.processes.set i p',
                         done := s.done + 1,
                         cpu := none, rr0 := rr0', rr1 := rr1' } := by
            intro rr0' rr1' h0q h0n h1q h1n
            refine ⟨hids', ?_, ?_, ?_, ?_, h0n, h1n, hinv.prle⟩
            · intro j q hq
              dsimp only at hq ⊢
              constructor
              · intro hqb
                exact absurd hqb
                  (hnob j q (by rw [hmm']; exact fun hbad => Mode.noConfusion hbad) hcpu' hq)
              · intro hbad
                exact Option.noConfusion hbad
            · intro c0 hc
              exact Option.noConfusion hc
            · intro id hid
              exact hinv.mem0 id (h0q id hid)
            · intro id hid
              exact hinv.mem1 id (h1q id hid)
          split at h'
          · exact Option.noConfusion h'
          · rename_i pr hpri
            split at h'
            · split at h'
              · exact Option.noConfusion h'
              · rename_i q0' hq0
                obtain rfl := Option.some.inj h'
                have herase := rr_processDone_queue hq0
                refine ⟨hcommon q0' s.rr1 ?_ ?_ (fun id hid => hid) hinv.nodup1, rfl, by simp⟩
                · intro id hid
                  rw [herase] at hid
                  exact List.mem_of_mem_eraseIdx hid
                · rw [herase]
                  exact List.Sublist.nodup (List.eraseIdx_sublist _ _) hinv.nodup0
            · split at h'
              · split at h'
                · exact Option.noConfusion h'
                · rename_i q1' hq1
                  obtain rfl := Option.some.inj h'
                  have herase := rr_processDone_queue hq1
                  refine ⟨hcommon s.rr0 q1' (fun id hid => hid) hinv.nodup0 ?_ ?_, rfl, by simp⟩
                  · intro id hid
                    rw [herase] at hid
                    exact List.mem_of_mem_eraseIdx hid
                  · rw [herase]
                    exact List.Sublist.nodup (List.eraseIdx_sublist _ _) hinv.nodup1
              · obtain rfl := Option.some.inj h'
                exact ⟨hcommon s.rr0 s.rr1 (fun id hid => hid) hinv.nodup0
                  (fun id hid => hid) hinv.nodup1, rfl, by simp⟩
        · exact Option.noConfusion h'
      · -- processReady
        have hev' : ev = PEvent.evReady := hev
        have hmm' : p'.mode = Mode.ready := hmm
        have hpm' : p.mode = Mode.io := hpm
        subst hev'
        have h' : MLFQScheduler.processReady { s with processes := s.processes.set i p' } i =
            some s' := h
        simp only [MLFQScheduler.processReady] at h'
        have hone : ∀ j q, (s.processes.set i p').get? j = some q →
            (q.mode = Mode.burst ↔ s.cpu = some j) := by
          intro j q hq
          rcases hget j q hq with ⟨rfl, rfl⟩ | ⟨-, hq⟩
          · constructor
            · intro hqb
              rw [hmm'] at hqb
              exact absurd hqb (by simp)
            · intro hc
              exfalso
              have h2 := (hinv.oneburst _ p hp).mpr hc
              rw [hpm'] at h2
              exact Mode.noConfusion h2
          · exact hinv.oneburst j q hq
        split at h'
        · exact Option.noConfusion h'
        · rename_i pr hpri
          split at h'
          · obtain rfl := Option.some.inj h'
            refine ⟨⟨hids', hone, ?_, hinv.mem0, hinv.mem1, hinv.nodup0, hinv.nodup1,
              hinv.prle⟩, rfl, by simp⟩
            intro c hc
            simpa using hinv.cpu_lt c hc
          · obtain rfl := Option.some.inj h'
            refine ⟨⟨hids', hone, ?_, hinv.mem0, hinv.mem1, hinv.nodup0, hinv.nodup1,
              hinv.prle⟩, rfl, by simp⟩
            intro c hc
            simpa using hinv.cpu_lt c hc

/-- The per-tick process loop preserves the MLFQ invariant. -/
theorem mlfq_advanceLoop_inv :
    ∀ (l : List Nat) (s s' : MLFQScheduler), MLFQInv s → s.advanceLoop l = some s' →
      MLFQInv s' ∧ s'.priorities = s.priorities
  | [], s, s', hinv, h => by
    simp only [MLFQScheduler.advanceLoop] at h
    obtain rfl := Option.some.inj h
    exact ⟨hinv, rfl⟩
  | i :: rest, s, s', hinv, h => by
    simp only [MLFQScheduler.advanceLoop] at h
    split at h
    · exact Option.noConfusion h
    · rename_i s1 hstep
      obtain ⟨hi1, hp1, -⟩ := mlfq_stepProc_inv hinv hstep
      obtain ⟨hi2, hp2⟩ := mlfq_advanceLoop_inv rest s1 s' hi1 h
      exact ⟨hi2, by rw [hp2, hp1]⟩

/-- Level-0 end-of-tick bookkeeping preserves the invariant; it either
leaves the priority table unchanged, or (at an expiry) frees the CPU and
increments exactly the evicted member's priority from 0 to 1. -/
theorem mlfq_queueTick0_inv {s s' : MLFQScheduler}
    (hinv : MLFQInv s) (h : s.queueTick0 = some s') :
    MLFQInv s' ∧
    (s'.priorities = s.priorities ∨
      (s'.cpu = none ∧ ∀ i, s'.priorities.get? i = s.priorities.get? i ∨
        ∃ pr, s.priorities.get? i = some pr ∧ s'.priorities.get? i = some (pr + 1))) := by
  simp only [MLFQScheduler.queueTick0] at h
  split at h
  · exact Option.noConfusion h
  · rename_i q0 flag0 hsim0
    have hshape := rr_simulate_queue hsim0
    split at h
    · -- quantum not expired
      rename_i hflag
      obtain rfl := Option.some.inj h
      refine ⟨mlfq_inv_congr _ s rfl rfl ?_ rfl rfl hinv, Or.inl rfl⟩
      exact hshape.1 hflag
    · -- quantum expired: the cursor member is evicted and demoted
      rename_i hflag
      rw [Bool.not_eq_true] at hflag
      obtain ⟨hact, rid, hgetrid, hq0q, hq0lr⟩ := hshape.2 hflag
      have hridmem : rid ∈ s.rr0.queue := mem_of_get?_eq_some hgetrid
      have hridpr : s.priorities.get? rid = some 0 := hinv.mem0 rid hridmem
      have hnotmem : rid ∉ q0.queue := by
        rw [hq0q]
        exact not_mem_eraseIdx_self _ _ _ hinv.nodup0 hgetrid
      split at h
      · exact Option.noConfusion h
      · rename_i removed hlr
        have hrem : removed = rid := by
          have h2 : q0.lastRemoved = some removed := hlr
          rw [hq0lr] at h2
          exact (Option.some.inj h2).symm
        subst hrem
        split at h
        · exact Option.noConfusion h
        · rename_i pr hpreq
          have hpreq' : s.priorities.get? removed = some pr := hpreq
          have hpr0 : pr = 0 := by
            rw [hpreq'] at hridpr
            exact Option.some.inj hridpr
          subst hpr0
          have hremlt : removed < s.priorities.length := lt_of_get?_eq_some hpreq'
          split at h
          · exact Option.noConfusion h
          · rename_i pA hpA
            have hpA' : s.processes.get? removed = some pA := hpA
            split at h
            · exact Option.noConfusion h
            · rename_i pA' hdesch
              obtain ⟨hAburst, rfl⟩ := descheduleFromCPU_mode hdesch
              obtain rfl := Option.some.inj h
              have hcpu : s.cpu = some removed := (hinv.oneburst removed pA hpA').mp hAburst
              have hAlt : removed < s.processes.length := lt_of_get?_eq_some hpA'
              have hprrel : ∀ i,
                  (s.priorities.set removed 1).get? i = s.priorities.get? i ∨
                  ∃ pr, s.priorities.get? i = some pr ∧
                    (s.priorities.set removed 1).get? i = some (pr + 1) := by
                intro i
                by_cases hir : i = removed
                · subst hir
                  right
                  exact ⟨0, hpreq', get?_set_self hremlt 1⟩
                · left
                  exact get?_set_ne (Ne.symm hir) 1
              refine ⟨⟨?_, ?_, ?_, ?_, ?_, ?_, ?_, ?_⟩, Or.inr ⟨rfl, hprrel⟩⟩
              · intro j q hq
                dsimp only at hq
                by_cases hjr : j = removed
                · subst hjr
                  rw [get?_set_self hAlt] at hq
                  obtain rfl := Option.some.inj hq
                  exact hinv.ids j pA hpA'
                · rw [get?_set_ne (Ne.symm hjr)] at hq
                  exact hinv.ids j q hq
              · intro j q hq
                dsimp only at hq ⊢
                constructor
                · intro hqb
                  exfalso
                  by_cases hjr : j = removed
                  · subst hjr
                    rw [get?_set_self hAlt] at hq
                    obtain rfl := Option.some.inj hq
                    exact Mode.noConfusion hqb
                  · rw [get?_set_ne (Ne.symm hjr)] at hq
                    have h2 := (hinv.oneburst j q hq).mp hqb
                    rw [hcpu] at h2
                    exact hjr (Option.some.inj h2).symm
                · intro hbad
                  exact Option.noConfusion hbad
              · intro c0 hc
                exact Option.noConfusion hc
              · intro id hid
                dsimp only at hid ⊢
                have hid' : id ∈ s.rr0.queue := by
                  rw [hq0q] at hid
                  exact List.mem_of_mem_eraseIdx hid
                have hir : id ≠ removed := by
                  intro hbad
                  rw [hbad] at hid
                  exact hnotmem hid
                rw [get?_set_ne (Ne.symm hir)]
                exact hinv.mem0 id hid'
              · intro id hid
                dsimp only at hid ⊢
                simp only [RRQueue.addProcess, List.mem_append, List.mem_singleton] at hid
                rcases hid with hid | rfl
                · have h1 : s.priorities.get? id = some 1 := hinv.mem1 id hid
                  have hir : id ≠ removed := by
                    intro hbad
                    rw [hbad, hpreq'] at h1
                    exact absurd (Option.some.inj h1) (by decide)
                  rw [get?_set_ne (Ne.symm hir)]
                  exact h1
                · rw [get?_set_self hremlt]
              · dsimp only
                rw [hq0q]
                exact List.Sublist.nodup (List.eraseIdx_sublist _ _) hinv.nodup0
              · dsimp only
                simp only [RRQueue.addProcess]
                refine List.Nodup.append hinv.nodup1 (List.nodup_singleton _) ?_
                intro x hx hy
                rw [List.mem_singleton] at hy
                subst hy
                have h1 := hinv.mem1 x hx
                rw [hpreq'] at h1
                exact absurd (Option.some.inj h1) (by decide)
              · intro pr2 hpr2
                dsimp only at hpr2
                rcases List.mem_or_eq_of_mem_set hpr2 with hm | rfl
                · exact hinv.prle pr2 hm
                · omega

/-- Level-1 end-of-tick bookkeeping preserves the invariant; it either
leaves the priority table unchanged, or (at an expiry, which requires an
occupied CPU) increments exactly the evicted member's priority from 1
to 2. -/
theorem mlfq_queueTick1_inv {s s' : MLFQScheduler}
    (hinv : MLFQInv s) (h : s.queueTick1 = some s') :
    MLFQInv s' ∧
    (s'.priorities = s.priorities ∨
      (s.cpu ≠ none ∧ ∀ i, s'.priorities.get? i = s.priorities.get? i ∨
        ∃ pr, s.priorities.get? i = some pr ∧ s'.priorities.get? i = some (pr + 1))) := by
  simp only [MLFQScheduler.queueTick1] at h
  split at h
  · exact Option.noConfusion h
  · rename_i q1 flag1 hsim1
    have hshape := rr_simulate_queue hsim1
    split at h
    · rename_i hflag
      obtain rfl := Option.some.inj h
      refine ⟨mlfq_inv_congr _ s rfl rfl rfl ?_ rfl hinv, Or.inl rfl⟩
      exact hshape.1 hflag
    · rename_i hflag
      rw [Bool.not_eq_true] at hflag
      obtain ⟨hact, rid, hgetrid, hq1q, hq1lr⟩ := hshape.2 hflag
      have hridmem : rid ∈ s.rr1.queue := mem_of_get?_eq_some hgetrid
      have hridpr : s.priorities.get? rid = some 1 := hinv.mem1 rid hridmem
      have hnotmem : rid ∉ q1.queue := by
        rw [hq1q]
        exact not_mem_eraseIdx_self _ _ _ hinv.nodup1 hgetrid
      split at h
      · exact Option.noConfusion h
      · rename_i removed hlr
        have hrem : removed = rid := by
          have h2 : q1.lastRemoved = some removed := hlr
          rw [hq1lr] at h2
          exact (Option.some.inj h2).symm
        subst hrem
        split at h
        · exact Option.noConfusion h
        · rename_i pr hpreq
          have hpreq' : s.priorities.get? removed = some pr := hpreq
          have hpr1 : pr = 1 := by
            rw [hpreq'] at hridpr
            exact Option.some.inj hridpr
          subst hpr1
          have hremlt : removed < s.priorities.length := lt_of_get?_eq_some hpreq'
          split at h
          · exact Option.noConfusion h
          · rename_i pA hpA
            have hpA' : s.processes.get? removed = some pA := hpA
            split at h
            · exact Option.noConfusion h
            · rename_i pA' hdesch
              obtain ⟨hAburst, rfl⟩ := descheduleFromCPU_mode hdesch
              obtain rfl := Option.some.inj h
              have hcpu : s.cpu = some removed := (hinv.oneburst removed pA hpA').mp hAburst
              have hAlt : removed < s.processes.length := lt_of_get?_eq_some hpA'
              have hprrel : ∀ i,
                  (s.priorities.set removed 2).get? i = s.priorities.get? i ∨
                  ∃ pr, s.priorities.get? i = some pr ∧
                    (s.priorities.set removed 2).get? i = some (pr + 1) := by
                intro i
                by_cases hir : i = removed
                · subst hir
                  right
                  exact ⟨1, hpreq', get?_set_self hremlt 2⟩
                · left
                  exact get?_set_ne (Ne.symm hir) 2
              refine ⟨⟨?_, ?_, ?_, ?_, ?_, hinv.nodup0, ?_, ?_⟩,
                Or.inr ⟨by rw [hcpu]; exact fun hbad => Option.noConfusion hbad, hprrel⟩⟩
              · intro j q hq
                dsimp only at hq
                by_cases hjr : j = removed
                · subst hjr
                  rw [get?_set_self hAlt] at hq
                  obtain rfl := Option.some.inj hq
                  exact hinv.ids j pA hpA'
                · rw [get?_set_ne (Ne.symm hjr)] at hq
                  exact hinv.ids j q hq
              · intro j q hq
                dsimp only at hq ⊢
                constructor
                · intro hqb
                  exfalso
                  by_cases hjr : j = removed
                  · subst hjr
                    rw [get?_set_self hAlt] at hq
                    obtain rfl := Option.some.inj hq
                    exact Mode.noConfusion hqb
                  · rw [get?_set_ne (Ne.symm hjr)] at hq
                    have h2 := (hinv.oneburst j q hq).mp hqb
                    rw [hcpu] at h2
                    exact hjr (Option.some.inj h2).symm
                · intro hbad
                  exact Option.noConfusion hbad
              · intro c0 hc
                exact Option.noConfusion hc
              · intro id hid
                dsimp only at hid ⊢
                have h0 : s.priorities.get? id = some 0 := hinv.mem0 id hid
                have hir : id ≠ removed := by
                  intro hbad
                  rw [hbad, hpreq'] at h0
                  exact absurd (Option.some.inj h0) (by decide)
                rw [get?_set_ne (Ne.symm hir)]
                exact h0
              · intro id hid
                dsimp only at hid ⊢
                have hid' : id ∈ s.rr1.queue := by
                  rw [hq1q] at hid
                  exact List.mem_of_mem_eraseIdx hid
                have hir : id ≠ removed := by
                  intro hbad
                  rw [hbad] at hid
                  exact hnotmem hid
                rw [get?_set_ne (Ne.symm hir)]
                exact hinv.mem1 id hid'
              · dsimp only
                rw [hq1q]
                exact List.Sublist.nodup (List.eraseIdx_sublist _ _) hinv.nodup1
              · intro pr2 hpr2
                dsimp only at hpr2
                rcases List.mem_or_eq_of_mem_set hpr2 with hm | rfl
                · exact hinv.prle pr2 hm
                · omega

/-- The combined queue bookkeeping: invariant preserved, and every
priority entry is unchanged or incremented once (the quantum expiries of
the two queues cannot demote the same process in one tick). -/
theorem mlfq_queuePhase_inv {s s' : MLFQScheduler}
    (hinv : MLFQInv s) (h : s.queuePhase = some s') :
    MLFQInv s' ∧
    (∀ i, s'.priorities.get? i = s.priorities.get? i ∨
      ∃ pr, s.priorities.get? i = some pr ∧ s'.priorities.get? i = some (pr + 1)) := by
  rw [MLFQScheduler.queuePhase] at h
  obtain ⟨sMid, h0, h1⟩ := Option.bind_eq_some.mp h
  obtain ⟨hiM, hrel0⟩ := mlfq_queueTick0_inv hinv h0
  obtain ⟨hiF, hrel1⟩ := mlfq_queueTick1_inv hiM h1
  refine ⟨hiF, ?_⟩
  rcases hrel0 with hsame0 | ⟨hcpuM, hrel0⟩
  · rcases hrel1 with hsame1 | ⟨-, hrel1⟩
    · intro i
      left
      rw [hsame1, hsame0]
    · intro i
      rcases hrel1 i with h2 | ⟨pr, h2, h3⟩
      · left
        rw [h2, hsame0]
      · right
        exact ⟨pr, by rw [← hsame0]; exact h2, h3⟩
  · rcases hrel1 with hsame1 | ⟨hcpuM', -⟩
    · intro i
      rw [hsame1]
      exact hrel0 i
    · exact absurd hcpuM hcpuM'

/-- A full MLFQ tick preserves the invariant, and changes each priority
entry by at most a single demotion step. -/
theorem mlfq_simulate_inv {s s' : MLFQScheduler} {b : Bool}
    (hinv : MLFQInv s) (h : s.simulate = some (s', b)) :
    MLFQInv s' ∧
    (∀ i, s'.priorities.get? i = s.priorities.get? i ∨
      ∃ pr, s.priorities.get? i = some pr ∧ s'.priorities.get? i = some (pr + 1)) := by
  rw [MLFQScheduler.simulate] at h
  split at h
  · obtain h2 := Option.some.inj h
    obtain rfl : s = s' := congrArg Prod.fst h2
    exact ⟨hinv, fun i => Or.inl rfl⟩
  · obtain ⟨s1, hdec, h⟩ := Option.bind_eq_some.mp h
    obtain ⟨hi1, hp1, -, -⟩ := mlfq_decision_inv hinv hdec
    rw [MLFQScheduler.afterDecision] at h
    have key : ∀ t : MLFQScheduler, t.processes = s1.processes → t.cpu = s1.cpu →
        t.rr0 = s1.rr0 → t.rr1 = s1.rr1 → t.priorities = s1.priorities →
        (match t.advanceAll with
          | none => none
          | some s2 =>
            match s2.queuePhase with
            | none => none
            | some s3 => some (s3, decide (s3.done = s3.n))) = some (s', b) →
        MLFQInv s' ∧
        (∀ i, s'.priorities.get? i = s.priorities.get? i ∨
          ∃ pr, s.priorities.get? i = some pr ∧ s'.priorities.get? i = some (pr + 1)) := by
      intro t hpp hcc h00 h11 hprp h2
      have hit : MLFQInv t := by
        refine mlfq_inv_congr t s1 hpp hcc ?_ ?_ hprp hi1
        · rw [h00]
        · rw [h11]
      split at h2
      · exact Option.noConfusion h2
      · rename_i s2 hadv
        obtain ⟨hi2, hp2⟩ := mlfq_advanceLoop_inv _ t s2 hit hadv
        split at h2
        · exact Option.noConfusion h2
        · rename_i s3 hqp
          obtain h3 := Option.some.inj h2
          obtain rfl : s3 = s' := congrArg Prod.fst h3
          obtain ⟨hi3, hrel⟩ := mlfq_queuePhase_inv hi2 hqp
          refine ⟨hi3, ?_⟩
          intro i
          rcases hrel i with h4 | ⟨pr, h4, h5⟩
          · left
            rw [h4, hp2, hprp, hp1]
          · right
            refine ⟨pr, ?_, h5⟩
            rw [← hp1, ← hprp, ← hp2]
            exact h4
    exact key _ (by dsimp only; split <;> rfl) (by dsimp only; split <;> rfl)
      (by dsimp only; split <;> rfl) (by dsimp only; split <;> rfl)
      (by dsimp only; split <;> rfl) h

/-- The `mkProcs` ids are the positions. -/
theorem mkProcs_map_id (times : List (List Int)) :
    (mkProcs times).map Process.id = List.range times.length := by
  apply List.ext_get?
  intro n
  simp only [List.get?_eq_getElem?, List.getElem?_map]
  rw [← List.get?_eq_getElem? (mkProcs times), mkProcs_get?]
  by_cases hn : n < times.length
  · rw [if_pos hn, List.getElem?_range hn]
    rfl
  · rw [if_neg hn, List.getElem?_eq_none (by simpa using hn)]
    rfl

/-- The fresh MLFQ construction establishes the invariant, and its
priority table is all zeros. -/
theorem mlfq_init_inv {times : List (List Int)} {s : MLFQScheduler}
    (h : MLFQScheduler.init times = some s) :
    MLFQInv s ∧ s.priorities = List.replicate s.n 0 := by
  simp only [MLFQScheduler.init] at h
  split at h
  · exact Option.noConfusion h
  · rename_i p0 hp0
    split at h
    · exact Option.noConfusion h
    · rename_i p0' hsch
      obtain rfl := Option.some.inj h
      have h0lt : (0 : Nat) < (mkProcs times).length := lt_of_get?_eq_some hp0
      have h0lt' : (0 : Nat) < times.length := by
        rw [mkProcs_length] at h0lt
        exact h0lt
      have hp0id : p0.id = 0 := by
        rw [mkProcs_get?, if_pos h0lt'] at hp0
        obtain rfl := Option.some.inj hp0
        rfl
      obtain ⟨hready, hburst, hid⟩ := scheduleOnCPU_mode hsch
      have hget : ∀ j q, ((mkProcs times).set 0 p0').get? j = some q →
          (j = 0 ∧ q = p0') ∨
          (j ≠ 0 ∧ q = Process.init j (times.getD j [])) := by
        intro j q hq
        by_cases hj0 : j = 0
        · subst hj0
          rw [get?_set_self h0lt] at hq
          exact Or.inl ⟨rfl, (Option.some.inj hq).symm⟩
        · rw [get?_set_ne (Ne.symm hj0), mkProcs_get?] at hq
          split at hq
          · exact Or.inr ⟨hj0, (Option.some.inj hq).symm⟩
          · exact Option.noConfusion hq
      refine ⟨⟨?_, ?_, ?_, ?_, ?_, ?_, ?_, ?_⟩, rfl⟩
      · intro j q hq
        rcases hget j q hq with ⟨rfl, rfl⟩ | ⟨-, rfl⟩
        · rw [hid, hp0id]
        · rfl
      · intro j q hq
        dsimp only
        rcases hget j q hq with ⟨rfl, rfl⟩ | ⟨hj0, rfl⟩
        · simp [hburst, hp0id]
        · constructor
          · intro hbad
            exact absurd hbad (by simp [Process.init])
          · intro hc
            exfalso
            rw [hp0id] at hc
            exact hj0 (Option.some.inj hc).symm
      · intro c hc
        dsimp only at hc
        rw [hp0id] at hc
        obtain rfl := Option.some.inj hc
        simpa using h0lt
      · intro id hid
        dsimp only at hid ⊢
        rw [show (RRQueue.mk0 ((mkProcs times).map Process.id) 5 true).queue =
          (mkProcs times).map Process.id from rfl, mkProcs_map_id] at hid
        have hlt : id < times.length := List.mem_range.mp hid
        rw [List.get?_eq_getElem?, List.getElem?_replicate]
        rw [mkProcs_length]
        simp [hlt]
      · intro id hid
        dsimp only at hid
        exact absurd hid (List.not_mem_nil id)
      · dsimp only
        rw [show (RRQueue.mk0 ((mkProcs times).map Process.id) 5 true).queue =
          (mkProcs times).map Process.id from rfl, mkProcs_map_id]
        exact List.nodup_range _
      · exact List.nodup_nil
      · intro pr hpr
        dsimp only at hpr
        rw [List.eq_of_mem_replicate hpr]
        omega

/-- MLFQ scheduler states reachable from a fresh construction over a
given workload table. -/
inductive MLFQReach (times : List (List Int)) : MLFQScheduler → Prop where
  | init {s} : MLFQScheduler.init times = some s → MLFQReach times s
  | step {s s' b} : MLFQReach times s → s.simulate = some (s', b) → MLFQReach times s'

theorem mlfqReach_inv {times : List (List Int)} {s : MLFQScheduler}
    (h : MLFQReach times s) : MLFQInv s := by
  induction h with
  | init h0 => exact (mlfq_init_inv h0).1
  | step _ hstep ih => exact (mlfq_simulate_inv ih hstep).1

/-- Witness queue for C2: one member, quantum 2, one elapsed slot tick. -/
def rrW : RRQueue :=
  { quantum := 2, queue := [0], time := 1, idx := 0, isActive := true,
    lastRemoved := none, currentRunning := some 0 }

/-- `rrW` after the tick on which its quantum expires. -/
def rrW' : RRQueue :=
  { quantum := 2, queue := [], time := 0, idx := 0, isActive := false,
    lastRemoved := some 0, currentRunning := none }

/-- Process list backing the C2 witness queue. -/
def procsW : List Process := [Process.init 0 [3]]

/-! ## The remaining claims -/

/-- Witness state: the FCFS scheduler freshly constructed over the
single workload `[2]`. -/
def fcfsW : FCFSScheduler :=
  { processes := [{ id := 0, n := 1, burst_times := [2], io_times := [],
                    mode := Mode.burst, idx_burst := 0, idx_io := 0,
                    waiting_time := 0, turnaround_time := 0,
                    response_time := some 0 }],
    cpu := some 0, queue := [], total_time := 0, cpu_time := 0,
    done := 0, n := 1 }

/-- Witness state: the MLFQ scheduler freshly constructed over the
single workload `[2]`. -/
def mlfqW : MLFQScheduler :=
  { processes := [{ id := 0, n := 1, burst_times := [2], io_times := [],
                    mode := Mode.burst, idx_burst := 0, idx_io := 0,
                    waiting_time := 0, turnaround_time := 0,
                    response_time := some 0 }],
    n := 1,
    rr0 := { quantum := 5, queue := [0], time := 0, idx := 0,
             isActive := true, lastRemoved := none, currentRunning := some 0 },
    rr1 := { quantum := 10, queue := [], time := 0, idx := 0,
             isActive := false, lastRemoved := none, currentRunning := none },
    fcfs_queue := [], priorities := [0], cpu := some 0,
    total_time := 0, cpu_time := 0, done := 0 }

/-- C5: in every state reachable by `FCFSScheduler.simulate` or
`MLFQScheduler.simulate` from a freshly constructed scheduler, at most
one process is in 'burst' mode, and the cpu slot is non-empty exactly
when it names a (the) 'burst'-mode process. -/
theorem claim_C5 :
    (∀ (times : List (List Int)) (s : FCFSScheduler), FCFSReach times s →
      (∀ i j p q, s.processes.get? i = some p → s.processes.get? j = some q →
        p.mode = Mode.burst → q.mode = Mode.burst → i = j) ∧
      (∀ c, s.cpu = some c →
        ∃ p, s.processes.get? c = some p ∧ p.mode = Mode.burst) ∧
      (∀ i p, s.processes.get? i = some p → p.mode = Mode.burst →
        s.cpu = some i)) ∧
    (∀ (times : List (List Int)) (s : MLFQScheduler), MLFQReach times s →
      (∀ i j p q, s.processes.get? i = some p → s.processes.get? j = some q →
        p.mode = Mode.burst → q.mode = Mode.burst → i = j) ∧
      (∀ c, s.cpu = some c →
        ∃ p, s.processes.get? c = some p ∧ p.mode = Mode.burst) ∧
      (∀ i p, s.processes.get? i = some p → p.mode = Mode.burst →
        s.cpu = some i)) := by
  constructor
  · intro times s hreach
    have hinv := fcfsReach_inv hreach
    refine ⟨?_, ?_, ?_⟩
    · intro i j p q hp hq hpm hqm
      have h1 := (hinv.oneburst i p hp).mp hpm
      have h2 := (hinv.oneburst j q hq).mp hqm
      rw [h1] at h2
      exact Option.some.inj h2
    · intro c hc
      have hlt := hinv.cpu_lt c hc
      obtain ⟨p, hp⟩ : ∃ p, s.processes.get? c = some p := by
        rw [List.get?_eq_getElem?]
        exact ⟨_, List.getElem?_eq_some_iff.mpr ⟨hlt, rfl⟩⟩
      exact ⟨p, hp, (hinv.oneburst c p hp).mpr hc⟩
    · intro i p hp hpm
      exact (hinv.oneburst i p hp).mp hpm
  · intro times s hreach
    have hinv := mlfqReach_inv hreach
    refine ⟨?_, ?_, ?_⟩
    · intro i j p q hp hq hpm hqm
      have h1 := (hinv.oneburst i p hp).mp hpm
      have h2 := (hinv.oneburst j q hq).mp hqm
      rw [h1] at h2
      exact Option.some.inj h2
    · intro c hc
      have hlt := hinv.cpu_lt c hc
      obtain ⟨p, hp⟩ : ∃ p, s.processes.get? c = some p := by
        rw [List.get?_eq_getElem?]
        exact ⟨_, List.getElem?_eq_some_iff.mpr ⟨hlt, rfl⟩⟩
      exact ⟨p, hp, (hinv.oneburst c p hp).mpr hc⟩
    · intro i p hp hpm
      exact (hinv.oneburst i p hp).mp hpm

theorem claim_C5_witness :
    (∃ p, fcfsW.processes.get? 0 = some p ∧ p.mode = Mode.burst) ∧
    (∃ p, mlfqW.processes.get? 0 = some p ∧ p.mode = Mode.burst) :=
  ⟨((claim_C5.1 [[2]] fcfsW (FCFSReach.init rfl)).2.1 0 rfl),
   ((claim_C5.2 [[2]] mlfqW (MLFQReach.init rfl)).2.1 0 rfl)⟩

/-- C6: priorities start at 0, change only by +1 per tick (and only in
the queue-expiry phase — the decision and advance phases preserve them),
never decrease, never exceed 2, and a process returning from I/O
(`processReady`) keeps its priority. -/
theorem claim_C6 :
    (∀ (times : List (List Int)) (s : MLFQScheduler),
      MLFQScheduler.init times = some s →
      s.priorities = List.replicate s.n 0) ∧
    (∀ (times : List (List Int)) (s s' : MLFQScheduler) (b : Bool),
      MLFQReach times s → s.simulate = some (s', b) →
      ∀ i, s'.priorities.get? i = s.priorities.get? i ∨
        ∃ pr, s.priorities.get? i = some pr ∧
          s'.priorities.get? i = some (pr + 1)) ∧
    (∀ (times : List (List Int)) (s s' : MLFQScheduler) (b : Bool),
      MLFQReach times s → s.simulate = some (s', b) →
      ∀ i pr pr', s.priorities.get? i = some pr →
        s'.priorities.get? i = some pr' → pr ≤ pr') ∧
    (∀ (times : List (List Int)) (s s' : MLFQScheduler),
      MLFQReach times s → s.decision = some s' →
      s'.priorities = s.priorities) ∧
    (∀ (times : List (List Int)) (s s' : MLFQScheduler),
      MLFQReach times s → s.advanceAll = some s' →
      s'.priorities = s.priorities) ∧
    (∀ (times : List (List Int)) (s : MLFQScheduler),
      MLFQReach times s → ∀ pr ∈ s.priorities, pr ≤ 2) ∧
    (∀ (s s' : MLFQScheduler) (id : Nat),
      s.processReady id = some s' → s'.priorities = s.priorities) := by
  refine ⟨?_, ?_, ?_, ?_, ?_, ?_, ?_⟩
  · intro times s h
    exact (mlfq_init_inv h).2
  · intro times s s' b hr hs
    exact (mlfq_simulate_inv (mlfqReach_inv hr) hs).2
  · intro times s s' b hr hs i pr pr' hpr hpr'
    rcases (mlfq_simulate_inv (mlfqReach_inv hr) hs).2 i with h | ⟨pr2, h1, h2⟩
    · rw [h, hpr] at hpr'
      obtain rfl := Option.some.inj hpr'
      exact Nat.le_refl pr
    · rw [hpr] at h1
      obtain rfl := Option.some.inj h1
      rw [h2] at hpr'
      obtain rfl := (Option.some.inj hpr').symm
      exact Nat.le_succ pr
  · intro times s s' hr hd
    exact (mlfq_decision_inv (mlfqReach_inv hr) hd).2.1
  · intro times s s' hr ha
    exact (mlfq_advanceLoop_inv _ s s' (mlfqReach_inv hr) ha).2
  · intro times s hr
    exact (mlfqReach_inv hr).prle
  · intro s s' id h
    simp only [MLFQScheduler.processReady] at h
    split at h
    · exact Option.noConfusion h
    · split at h
      · obtain rfl := Option.some.inj h
        rfl
      · obtain rfl := Option.some.inj h
        rfl

theorem claim_C6_witness :
    mlfqW.priorities = List.replicate mlfqW.n 0 ∧
    ({ mlfqW with priorities := [2], fcfs_queue := [0] } :
        MLFQScheduler).priorities =
      ({ mlfqW with priorities := [2] } : MLFQScheduler).priorities :=
  ⟨claim_C6.1 [[2]] mlfqW rfl,
   claim_C6.2.2.2.2.2.2 { mlfqW with priorities := [2] }
     { mlfqW with priorities := [2], fcfs_queue := [0] } 0 rfl⟩

/-- C7: a priority-2 process holding the CPU while the level-0 queue can
supply a ready member is preempted by the tick's scheduling decision —
which `simulate` evaluates before any process advances: it is
descheduled (mode back to 'ready', burst durations and metric counters
untouched), pushed onto the FIFO queue tail, and the level-0 candidate
takes the CPU; priorities, the level-1 queue, the done counter and every
other process are unchanged. -/
theorem claim_C7 {s : MLFQScheduler} {c r : Nat} {pc pr0 : Process} {q0 : RRQueue}
    (hcpu : s.cpu = some c)
    (hprc : s.priorities.get? c = some 2)
    (hpc : s.processes.get? c = some pc)
    (hpcm : pc.mode = Mode.burst)
    (hact : RRQueue.makeActive s.processes s.rr0 = some (q0, true))
    (hrun : q0.currentRunning = some r)
    (hr : s.processes.get? r = some pr0)
    (hrm : pr0.mode = Mode.ready)
    (hpr0 : s.priorities.get? r = some 0) :
    (∃ s', s.decision = some s' ∧
      s'.cpu = some r ∧
      s'.fcfs_queue = s.fcfs_queue ++ [c] ∧
      s'.processes.get? c = some { pc with mode := Mode.ready } ∧
      s'.priorities = s.priorities ∧
      s'.rr1 = s.rr1 ∧
      s'.done = s.done ∧
      (∀ j, j ≠ c → j ≠ r → s'.processes.get? j = s.processes.get? j)) ∧
    (s.done ≠ s.n →
      s.simulate = (s.decision).bind MLFQScheduler.afterDecision) := by
  have hrc : r ≠ c := by
    intro he
    rw [he, hpc] at hr
    obtain rfl := Option.some.inj hr
    rw [hpcm] at hrm
    exact Mode.noConfusion hrm
  have hclt : c < s.processes.length := lt_of_get?_eq_some hpc
  have hdesch : pc.descheduleFromCPU = some { pc with mode := Mode.ready } := by
    rw [Process.descheduleFromCPU, if_pos hpcm]
  have hsch : pr0.scheduleOnCPU =
      some { pr0 with
             mode := Mode.burst,
             response_time :=
               (match pr0.response_time with
                | none => some pr0.turnaround_time
                | some t => some t) } := by
    rw [Process.scheduleOnCPU, if_pos hrm]
  have hgr : (s.processes.set c { pc with mode := Mode.ready }).get? r = some pr0 := by
    rw [get?_set_ne (Ne.symm hrc)]
    exact hr
  have h0 : s.tryLevel0 = some
      { s with
        rr0 := q0,
        processes :=
          (s.processes.set c { pc with mode := Mode.ready }).set r
            { pr0 with
              mode := Mode.burst,
              response_time :=
                (match pr0.response_time with
                 | none => some pr0.turnaround_time
                 | some t => some t) },
        fcfs_queue := s.fcfs_queue ++ [c],
        cpu := some r } := by
    rw [MLFQScheduler.tryLevel0]
    simp only [hcpu, hprc, show (decide ((0 : Nat) < 2)) = true from rfl, hact,
      if_true, hpc, hdesch, hrun, hgr, hsch, reduceIte]
    rw [if_neg (show ¬ ((2 : Nat) = 1) from by decide)]
    simp only [hrun, hgr, hsch]
  have h1 : ∀ t : MLFQScheduler, t.cpu = some r → t.priorities = s.priorities →
      t.tryLevel1 = some t := by
    intro t htc htp
    rw [MLFQScheduler.tryLevel1]
    simp only [htc, htp, hpr0]
    rfl
  have h2 : ∀ t : MLFQScheduler, t.cpu = some r → t.tryFifo = some t := by
    intro t htc
    rw [MLFQScheduler.tryFifo, htc]
  have hstep : ∀ t : MLFQScheduler, s.tryLevel0 = some t → t.cpu = some r →
      t.priorities = s.priorities → s.decision = some t := by
    intro t ht htc htp
    rw [MLFQScheduler.decision, ht]
    dsimp only [Option.bind]
    rw [h1 t htc htp]
    dsimp only [Option.bind]
    exact h2 t htc
  have hdec := hstep _ h0 rfl rfl
  refine ⟨⟨_, hdec, rfl, rfl, ?_, rfl, rfl, rfl, ?_⟩, ?_⟩
  · dsimp only
    rw [get?_set_ne hrc, get?_set_self hclt]
  · intro j hjc hjr
    dsimp only
    rw [get?_set_ne (Ne.symm hjr), get?_set_ne (Ne.symm hjc)]
  · intro hdn
    rw [MLFQScheduler.simulate, if_neg hdn]

/-- Witness state for C7: P0 = [5] is mid-burst on the CPU at priority 2,
P1 = [7] is ready in the (momentarily inactive) level-0 queue at
priority 0. -/
def mlfqC7 : MLFQScheduler :=
  { processes := [{ Process.init 0 [5] with mode := Mode.burst },
                  Process.init 1 [7]],
    n := 2,
    rr0 := { quantum := 5, queue := [1], time := 0, idx := 0,
             isActive := false, lastRemoved := none, currentRunning := none },
    rr1 := { quantum := 10, queue := [], time := 0, idx := 0,
             isActive := false, lastRemoved := none, currentRunning := none },
    fcfs_queue := [],
    priorities := [2, 0],
    cpu := some 0,
    total_time := 0, cpu_time := 0, done := 0 }

theorem claim_C7_witness :
    (∃ s', mlfqC7.decision = some s' ∧
      s'.cpu = some 1 ∧
      s'.fcfs_queue = mlfqC7.fcfs_queue ++ [0] ∧
      s'.processes.get? 0 =
        some { { Process.init 0 [5] with mode := Mode.burst }
               with mode := Mode.ready } ∧
      s'.priorities = mlfqC7.priorities ∧
      s'.rr1 = mlfqC7.rr1 ∧
      s'.done = mlfqC7.done ∧
      (∀ j, j ≠ 0 → j ≠ 1 → s'.processes.get? j = mlfqC7.processes.get? j)) ∧
    (mlfqC7.done ≠ mlfqC7.n →
      mlfqC7.simulate = (mlfqC7.decision).bind MLFQScheduler.afterDecision) :=
  claim_C7 rfl rfl rfl rfl rfl rfl rfl rfl rfl

theorem claim_C2_amended_witness :
    (false = false ↔
      rrW.isActive = true ∧ rrW.time + 1 = rrW.quantum) ∧
    (rrW'.lastRemoved = rrW.queue.get? rrW.idx ∧ rrW'.time = 0) ∧
    ((rrW.makeInactive).time = rrW.time ∧
      (rrW.makeInactive).queue = rrW.queue ∧
      (rrW.makeInactive).idx = rrW.idx ∧
      (rrW.makeInactive).quantum = rrW.quantum) ∧
    (rrW.time = rrW.time ∧ rrW.queue = rrW.queue ∧ rrW.quantum = rrW.quantum) :=
  ⟨claim_C2_amended.1 procsW rrW (rrW', false) rfl,
   claim_C2_amended.2.1 procsW rrW rrW' rfl,
   claim_C2_amended.2.2.1 rrW,
   claim_C2_amended.2.2.2 procsW rrW (rrW, true) rfl⟩

end Sched
